import Mathlib

/-! LGTM handler of mungegithub: a shallow embedding

Embedding of `mungegithub/mungers/lgtm_helpers.go` and
`mungegithub/mungers/lgtm_handler.go`.

Conventions of the embedding:

* a Go `string` is a Lean `String` (a sequence of Unicode code points; the
  separator `"//"` and every command token are ASCII, so searching bytes and
  searching code points agree);
* a Go pointer is an `Option`, `none` being `nil`;
* `time.Time` is an instant on the integer line, `After` is the strict order;
* a function that can dereference `nil` or index out of range returns a value
  that records the runtime failure;
* the label calls issued on the `MungeObject` are collected, in order, in a
  list.
-/

namespace Mungers

/-! ## Go standard library: `unicode` and `strings` -/

/-- Go `unicode.IsSpace`: the Latin-1 cases of the switch, then the
`White_Space` range table. -/
def unicodeIsSpace (r : Char) : Bool :=
  let n := r.toNat
  if n ≤ 0xFF then
    n = 0x09 || n = 0x0A || n = 0x0B || n = 0x0C || n = 0x0D || n = 0x20 ||
      n = 0x85 || n = 0xA0
  else
    n = 0x1680 || (0x2000 ≤ n && n ≤ 0x200A) || n = 0x2028 || n = 0x2029 ||
      n = 0x202F || n = 0x205F || n = 0x3000

/-- Go `unicode.ToLower`: the ASCII fast path is spelled out, the lower-case
mapping of `unicode.CaseRanges` for the runes above ASCII is the parameter
`caseRanges`. -/
def unicodeToLower (caseRanges : Char → Char) (r : Char) : Char :=
  if r.toNat ≤ 0x7F then
    if 'A'.toNat ≤ r.toNat ∧ r.toNat ≤ 'Z'.toNat then Char.ofNat (r.toNat + 32) else r
  else caseRanges r

/-- Go `strings.ToLower`: every rune is mapped through `unicode.ToLower`. -/
def stringsToLower (caseRanges : Char → Char) (s : String) : String :=
  String.mk (s.data.map (unicodeToLower caseRanges))

/-- First element of the pieces computed by `splitSlashes`, as a helper to put a
rune in front of the piece under construction. -/
def consHead (c : Char) : List (List Char) → List (List Char)
  | [] => [[c]]
  | p :: ps => (c :: p) :: ps

/-- Go `strings.Split(s, "//")` on the runes of `s`: the pieces between the
non-overlapping occurrences of `"//"`, found from the left. -/
def splitSlashes : List Char → List (List Char)
  | [] => [[]]
  | [c] => [[c]]
  | c :: d :: rest =>
    if c = '/' ∧ d = '/' then [] :: splitSlashes rest
    else consHead c (splitSlashes (d :: rest))

/-- Go `strings.Split(s, "//")`. -/
def stringsSplit (s : String) : List String :=
  (splitSlashes s.data).map String.mk

/-- Scanner of `strings.Fields`: `cur` holds, reversed, the runes of the field
being read. -/
def fieldsAux : List Char → List Char → List (List Char)
  | [], cur => if cur = [] then [] else [cur.reverse]
  | c :: rest, cur =>
    if unicodeIsSpace c then
      if cur = [] then fieldsAux rest [] else cur.reverse :: fieldsAux rest []
    else fieldsAux rest (c :: cur)

/-- Go `strings.Fields`: the maximal runs of runes that are not white space. -/
def stringsFields (s : String) : List String :=
  (fieldsAux s.data []).map String.mk

/-- Go `strings.TrimSpace`: white space removed at both ends. -/
def stringsTrimSpace (s : String) : String :=
  String.mk ((s.data.dropWhile unicodeIsSpace).reverse.dropWhile unicodeIsSpace).reverse

/-- Go `strings.Contains(s, "//")`. -/
def containsSlashes (s : String) : Prop :=
  ['/', '/'] <:+: s.data

instance (s : String) : Decidable (containsSlashes s) := by
  unfold containsSlashes; infer_instance

/-! ## Data model -/

/-- Go `time.Time`, an instant. -/
abbrev Time := Int

/-- Go `t.After(u)`: `t` is strictly later than `u`. -/
def Time.After (t u : Time) : Bool := decide (u < t)

/-- The part of `githubapi.User` the handler reads. -/
structure User where
  Login : Option String
  deriving DecidableEq, Repr

/-- The part of `githubapi.IssueComment` the handler reads. -/
structure IssueComment where
  User : Option User
  Body : Option String
  CreatedAt : Option Time
  deriving DecidableEq, Repr

/-- Action of an event of the spec's data model. -/
inductive EventAction where
  | LabelAdded
  | LabelRemoved
  deriving DecidableEq, Repr

/-- Modelled from the spec: the `githubapi.IssueEvent` as the matchers of the
package `matchers/event` (not among the sources) see it, namely the spec's
Event: actor identity, action, label name, timestamp, actor-is-human flag. -/
structure IssueEvent where
  Actor : String
  Action : EventAction
  Label : String
  CreatedAt : Time
  ActorIsHuman : Bool
  deriving DecidableEq, Repr

/-- Modelled from the spec: `mungerutil.UserSet` (a set of logins, not among
the sources), the ReviewerSet of the spec with membership-only semantics. -/
abbrev UserSet := List String

/-- Modelled from the spec: `UserSet.Has` of `mungerutil` (not among the
sources): the user's identity is a member of the set; a user without an
identity is a member of no set. -/
def UserSet.Has (s : UserSet) (user : Option User) : Bool :=
  match user with
  | some ⟨some login⟩ => decide (login ∈ s)
  | _ => false

/-- Modelled from the spec: `mungerutil.GetUsers` (not among the sources): the
identities of the given users, deduplicated into a set. -/
def GetUsers (users : List (Option User)) : UserSet :=
  (users.filterMap fun u => u.bind User.Login).dedup

/-- What the handler takes from outside the two source files and the spec
leaves open: the two identity checks of `mungerutil` and the lower-case table
of the Go `unicode` package. -/
structure Env where
  IsValidUser : Option User → Bool
  IsMungeBot : Option User → Bool
  caseRanges : Char → Char

/-- A label call on the `MungeObject`. -/
inductive LabelCall where
  | AddLabels (labels : List String)
  | RemoveLabel (label : String)
  deriving DecidableEq, Repr

/-- How a run of the handler ends: it returns after the label calls `calls`,
or it fails at run time (a `nil` dereference or an index out of range). Every
such failure point of the handler comes before the label call of its path, so
a failed run has issued no call. -/
inductive Outcome where
  | returned (calls : List LabelCall)
  | panicked
  deriving DecidableEq, Repr

/-- The label calls issued during a run. -/
def Outcome.calls : Outcome → List LabelCall
  | .returned calls => calls
  | .panicked => []

/-- Result of a fetch from the collaborator: the data, a fetch error, or a
runtime failure while building the request. -/
inductive Fetch (α : Type) where
  | ok (a : α)
  | err (msg : String)
  | panicked
  deriving DecidableEq, Repr

/-- Modelled from the spec: `github.MungeObject` (not among the sources), the
ReviewRequest of the spec: label set, last-modified time, comments (oldest
first), events, assignees, and whether the two fetches fail. -/
structure MungeObject where
  IsPR : Bool
  Assignees : List (Option User)
  Assignee : Option User
  Labels : List String
  LastModifiedTime : Option Time
  Comments : List IssueComment
  commentsErr : Option String
  Events : List IssueEvent
  eventsErr : Option String
  deriving DecidableEq, Repr

/-- Modelled from the spec: `lgtmLabel`, a constant of the package declared
outside the two source files: the mergeable label `lgtm`. -/
def lgtmLabel : String := "lgtm"

/-- Modelled from the spec: `obj.HasLabel` (not among the sources): the label
set contains the label. -/
def MungeObject.HasLabel (obj : MungeObject) (name : String) : Bool :=
  decide (name ∈ obj.Labels)

/-- Modelled from the spec: `obj.ListComments` (not among the sources): fails
with a fetch error, or returns in order the comments with creation time at or
after `since`. -/
def MungeObject.ListComments (obj : MungeObject) (since : Time) : Fetch (List IssueComment) :=
  match obj.commentsErr with
  | some msg => .err msg
  | none =>
    .ok (obj.Comments.filter fun c =>
      match c.CreatedAt with
      | some t => decide (since ≤ t)
      | none => false)

/-- Modelled from the spec: `obj.GetEvents` (not among the sources): fails with
a fetch error or returns the event history. -/
def MungeObject.GetEvents (obj : MungeObject) : Fetch (List IssueEvent) :=
  match obj.eventsErr with
  | some msg => .err msg
  | none => .ok obj.Events

/-- Modelled from the spec: the effect of one label call on the label set
(`obj.AddLabels`, `obj.RemoveLabel`, not among the sources): `AddLabels` adds
the names that are not there yet, `RemoveLabel` removes the name. -/
def applyCall (labels : List String) : LabelCall → List String
  | .AddLabels names => labels ++ names.filter fun n => decide (n ∉ labels)
  | .RemoveLabel name => labels.filter fun l => decide (l ≠ name)

/-- The label set after the calls of a run, applied in order. -/
def applyCalls (labels : List String) (calls : List LabelCall) : List String :=
  calls.foldl applyCall labels

/-- The request after the label calls of a run; nothing but the label set
changes. -/
def MungeObject.afterCalls (obj : MungeObject) (calls : List LabelCall) : MungeObject :=
  { obj with Labels := applyCalls obj.Labels calls }

/-! ## Event matchers (package `matchers/event`) -/

/-- Modelled from the spec: a matcher of `matchers/event` (not among the
sources), a predicate on events. -/
abbrev Matcher := IssueEvent → Bool

/-- Modelled from the spec: `e.AddLabel{}`, action = LabelAdded. -/
def eAddLabel : Matcher := fun ev => decide (ev.Action = .LabelAdded)

/-- Modelled from the spec: `e.RemoveLabel{}`, action = LabelRemoved. -/
def eRemoveLabel : Matcher := fun ev => decide (ev.Action = .LabelRemoved)

/-- Modelled from the spec: `e.LabelName(name)`, the event is about the label. -/
def eLabelName (name : String) : Matcher := fun ev => decide (ev.Label = name)

/-- Modelled from the spec: `e.HumanActor()`, the actor is human. -/
def eHumanActor : Matcher := fun ev => ev.ActorIsHuman

/-- Modelled from the spec: `e.And{...}`, every matcher matches. -/
def eAnd (ms : List Matcher) : Matcher := fun ev => ms.all fun m => m ev

/-- Modelled from the spec: `e.Or{...}`, some matcher matches. -/
def eOr (ms : List Matcher) : Matcher := fun ev => ms.any fun m => m ev

/-- Modelled from the spec: `e.LastEvent(events, m, deflt)` (not among the
sources): the timestamp of the most recent matching event, tracked as a
running maximum over the history, or `deflt` when no event matches. -/
def eLastEvent (events : List IssueEvent) (m : Matcher) (deflt : Option Time) : Option Time :=
  let latest : Option Time :=
    events.foldl
      (fun best ev =>
        if m ev then
          match best with
          | none => some ev.CreatedAt
          | some t => if ev.CreatedAt.After t then some ev.CreatedAt else some t
        else best)
      none
  match latest with
  | none => deflt
  | some t => some t

/-! ## `lgtm_helpers.go` -/

def approveLabel : String := "approved"
def approveCommand : String := "/approve"
def lgtmCommand : String := "/lgtm"
def cancelCommandModifer : String := "cancel"

/-- Source `manuallyRemoveMerableLabelTime`. -/
def manuallyRemoveMerableLabelTime (events : List IssueEvent) : Option Time :=
  let approveOrLGTM := eOr [eLabelName lgtmLabel, eLabelName approveLabel]
  let removeCommitAutoMergableTime :=
    eLastEvent events (eAnd [eRemoveLabel, approveOrLGTM, eHumanActor]) none
  removeCommitAutoMergableTime

/-- Source `manuallyAddMergableLabelTime`. -/
def manuallyAddMergableLabelTime (events : List IssueEvent) : Option Time :=
  let approveOrLGTM := eOr [eLabelName lgtmLabel, eLabelName approveLabel]
  let addLGTMTime :=
    eLastEvent events (eAnd [eAddLabel, approveOrLGTM, eHumanActor]) none
  addLGTMTime

/-- Source `isMergeCommand`: the switch on the lower-cased command. -/
def isMergeCommand (env : Env) (cmd : String) : Bool :=
  let lowered := stringsToLower env.caseRanges cmd
  if lowered = lgtmCommand then true
  else if lowered = approveCommand then true
  else false

/-- Source `isMergeComment`; `none` is an index out of range at `fields[0]`. -/
def isMergeComment (env : Env) (fields : List String) : Option Bool :=
  if fields.length ≠ 1 then some false
  else
    match fields[0]? with
    | none => none
    | some f0 => some (isMergeCommand env f0)

/-- Source `isCancelComment`; `none` is an index out of range at `fields[1]`
or `fields[0]`. -/
def isCancelComment (env : Env) (fields : List String) : Option Bool :=
  if fields.length ≠ 2 then some false
  else
    match fields[1]? with
    | none => none
    | some f1 =>
      if stringsToLower env.caseRanges f1 ≠ cancelCommandModifer then some false
      else
        match fields[0]? with
        | none => none
        | some f0 => some (isMergeCommand env f0)

/-- Source `getReviewers`: the assignees, then the assignee. -/
def getReviewers (obj : MungeObject) : UserSet :=
  let allAssignees := obj.Assignees ++ [obj.Assignee]
  GetUsers allAssignees

/-- Source `getCommentsAfterLastModified`: the option function dereferences
`obj.LastModifiedTime()` and passes it as `Since`. -/
def getCommentsAfterLastModified (obj : MungeObject) : Fetch (List IssueComment) :=
  match obj.LastModifiedTime with
  | none => .panicked
  | some lastModified => obj.ListComments lastModified

/-- Source `isReviewer`. -/
def isReviewer (user : Option User) (reviewers : UserSet) : Bool :=
  reviewers.Has user

/-- Source `getFields`; `none` is an index out of range at `[0]`. The result
of `strings.TrimSpace(cmd)` is discarded, as in the source. -/
def getFields (commentBody : String) : Option (List String) :=
  match (stringsSplit commentBody)[0]? with
  | none => none
  | some cmd =>
    let _ := stringsTrimSpace cmd
    some (stringsFields cmd)

/-- Source `isApprovedToAlterLabels`. -/
def isApprovedToAlterLabels (env : Env) (user : Option User) (reviewers : UserSet) : Bool :=
  env.IsMungeBot user && reviewers.Has user

/-! ## `lgtm_handler.go` -/

/-- Body of the loop of `addLGTMIfCommented`, run on the comments from the
most recent one to the oldest one (`i` going from `len(comments) - 1` down to
`0`). -/
def addLGTMLoop (env : Env) (events : List IssueEvent) (reviewers : UserSet) :
    List IssueComment → Outcome
  | [] => .returned []
  | comment :: older =>
    if !env.IsValidUser comment.User then addLGTMLoop env events reviewers older
    else if !isApprovedToAlterLabels env comment.User reviewers then
      addLGTMLoop env events reviewers older
    else
      match comment.Body with
      | none => .panicked
      | some body =>
        match getFields body with
        | none => .panicked
        | some fields =>
          match isCancelComment env fields with
          | none => .panicked
          | some true => .returned []
          | some false =>
            match isMergeComment env fields with
            | none => .panicked
            | some false => addLGTMLoop env events reviewers older
            | some true =>
              let removeMerableLabelTime := manuallyRemoveMerableLabelTime events
              let logAndAdd : Outcome :=
                match comment.User.bind User.Login with
                | none => .panicked
                | some _ => .returned [.AddLabels [lgtmLabel, approveLabel]]
              match removeMerableLabelTime with
              | none => logAndAdd
              | some t =>
                match comment.CreatedAt with
                | none => .panicked
                | some createdAt => if t.After createdAt then .returned [] else logAndAdd

/-- Source `addLGTMIfCommented`; `comments` is sorted from oldest to latest. -/
def addLGTMIfCommented (env : Env) (comments : List IssueComment)
    (events : List IssueEvent) (reviewers : UserSet) : Outcome :=
  addLGTMLoop env events reviewers comments.reverse

/-- Body of the loop of `removeLGTMIfCancelled`, run on the comments from the
most recent one to the oldest one. -/
def removeLGTMLoop (env : Env) (events : List IssueEvent) (reviewers : UserSet) :
    List IssueComment → Outcome
  | [] => .returned []
  | comment :: older =>
    if !env.IsValidUser comment.User then removeLGTMLoop env events reviewers older
    else if !isApprovedToAlterLabels env comment.User reviewers then
      removeLGTMLoop env events reviewers older
    else
      match comment.Body with
      | none => .panicked
      | some body =>
        match getFields body with
        | none => .panicked
        | some fields =>
          match isMergeComment env fields with
          | none => .panicked
          | some true => .returned []
          | some false =>
            match isCancelComment env fields with
            | none => .panicked
            | some false => removeLGTMLoop env events reviewers older
            | some true =>
              let addLGTMTime := manuallyAddMergableLabelTime events
              let logAndRemove : Outcome :=
                match comment.User.bind User.Login with
                | none => .panicked
                | some _ => .returned [.RemoveLabel lgtmLabel]
              match addLGTMTime with
              | none => logAndRemove
              | some t =>
                match comment.CreatedAt with
                | none => .panicked
                | some createdAt => if t.After createdAt then .returned [] else logAndRemove

/-- Source `removeLGTMIfCancelled`. -/
def removeLGTMIfCancelled (env : Env) (comments : List IssueComment)
    (events : List IssueEvent) (reviewers : UserSet) : Outcome :=
  removeLGTMLoop env events reviewers comments.reverse

/-- Source `LGTMHandler.Munge`. -/
def Munge (env : Env) (obj : MungeObject) : Outcome :=
  if !obj.IsPR then .returned []
  else
    let reviewers := getReviewers obj
    if reviewers.length = 0 then .returned []
    else
      match getCommentsAfterLastModified obj with
      | .panicked => .panicked
      | .err _ => .returned []
      | .ok comments =>
        match obj.GetEvents with
        | .panicked => .panicked
        | .err _ => .returned []
        | .ok events =>
          if !obj.HasLabel lgtmLabel then addLGTMIfCommented env comments events reviewers
          else removeLGTMIfCancelled env comments events reviewers

/-! ## Notions used in the statements -/

/-- The comment carries an author login, a body and a creation time, as every
Comment of the spec's data model does. -/
def IssueComment.Complete (c : IssueComment) : Bool :=
  (c.User.bind User.Login).isSome && c.Body.isSome && c.CreatedAt.isSome

/-- The body parses, through `getFields` and `isMergeComment`, to a
merge-command. -/
def isMergeBody (env : Env) (body : String) : Bool :=
  (getFields body).bind (isMergeComment env) == some true

/-- The body parses, through `getFields` and `isCancelComment`, to a
cancel-command. -/
def isCancelBody (env : Env) (body : String) : Bool :=
  (getFields body).bind (isCancelComment env) == some true

/-- The comment has a body and its fields are a merge-command. -/
def isMergeCommandComment (env : Env) (c : IssueComment) : Bool :=
  match c.Body with
  | some body => isMergeBody env body
  | none => false

/-- The comment has a body and its fields are a cancel-command. -/
def isCancelCommandComment (env : Env) (c : IssueComment) : Bool :=
  match c.Body with
  | some body => isCancelBody env body
  | none => false

/-- The author of the comment is a valid user approved to alter labels. -/
def isAuthorized (env : Env) (reviewers : UserSet) (c : IssueComment) : Bool :=
  env.IsValidUser c.User && isApprovedToAlterLabels env c.User reviewers

/-- An authorized command comment: the author is a valid user approved to
alter labels and the fields are a merge-command or a cancel-command. -/
def isAuthorizedCommand (env : Env) (reviewers : UserSet) (c : IssueComment) : Bool :=
  isAuthorized env reviewers c &&
    (isMergeCommandComment env c || isCancelCommandComment env c)

/-- The most recent (highest-index) authorized command comment of a comment
list sorted from oldest to latest, if there is one. -/
def lastAuthorizedCommand (env : Env) (reviewers : UserSet)
    (comments : List IssueComment) : Option IssueComment :=
  (comments.filter (isAuthorizedCommand env reviewers)).getLast?

/-- What a scan from the most recent comment to the oldest one stops at. -/
inductive Verdict where
  | exhausted
  | crash
  | merge (c : IssueComment)
  | cancel (c : IssueComment)
  deriving DecidableEq, Repr

/-- The scan both loops perform, on the comments from the most recent one to
the oldest one: unauthorized comments and authorized comments that are no
command are passed over, the first authorized command ends the scan. -/
def scan (env : Env) (reviewers : UserSet) : List IssueComment → Verdict
  | [] => .exhausted
  | c :: older =>
    if isAuthorized env reviewers c then
      match c.Body with
      | none => .crash
      | some body =>
        if isCancelBody env body then .cancel c
        else if isMergeBody env body then .merge c
        else scan env reviewers older
    else scan env reviewers older

/-- End of `addLGTMIfCommented` once the scan has stopped at a merge-command. -/
def addFinish (events : List IssueEvent) (comment : IssueComment) : Outcome :=
  let logAndAdd : Outcome :=
    match comment.User.bind User.Login with
    | none => .panicked
    | some _ => .returned [.AddLabels [lgtmLabel, approveLabel]]
  match manuallyRemoveMerableLabelTime events with
  | none => logAndAdd
  | some t =>
    match comment.CreatedAt with
    | none => .panicked
    | some createdAt => if t.After createdAt then .returned [] else logAndAdd

/-- End of `removeLGTMIfCancelled` once the scan has stopped at a
cancel-command. -/
def removeFinish (events : List IssueEvent) (comment : IssueComment) : Outcome :=
  let logAndRemove : Outcome :=
    match comment.User.bind User.Login with
    | none => .panicked
    | some _ => .returned [.RemoveLabel lgtmLabel]
  match manuallyAddMergableLabelTime events with
  | none => logAndRemove
  | some t =>
    match comment.CreatedAt with
    | none => .panicked
    | some createdAt => if t.After createdAt then .returned [] else logAndRemove

/-- Outcome of `addLGTMIfCommented` in terms of the scan. -/
def addOfVerdict (events : List IssueEvent) : Verdict → Outcome
  | .exhausted => .returned []
  | .crash => .panicked
  | .cancel _ => .returned []
  | .merge c => addFinish events c

/-- Outcome of `removeLGTMIfCancelled` in terms of the scan. -/
def removeOfVerdict (events : List IssueEvent) : Verdict → Outcome
  | .exhausted => .returned []
  | .crash => .panicked
  | .merge _ => .returned []
  | .cancel c => removeFinish events c

/-- Verdict of a scan that meets no comment without body, from the most recent
authorized command comment. -/
def verdictOf (env : Env) : Option IssueComment → Verdict
  | none => .exhausted
  | some c => if isCancelCommandComment env c then .cancel c else .merge c

/-- Identity checks and case table used to evaluate the handler on concrete
requests: a user is valid when it has a login and passes `IsMungeBot` when the
login is `k8s-merge-robot`; no rune above ASCII changes under lower-casing. -/
def demoEnv : Env :=
  { IsValidUser := fun u => (u.bind User.Login).isSome
    IsMungeBot := fun u => u.bind User.Login == some "k8s-merge-robot"
    caseRanges := fun r => r }

/-- Login of the reviewer of the concrete requests. -/
def demoReviewer : String := "k8s-merge-robot"

/-- A comment by `login` with the given body, created at `t`. -/
def demoComment (login body : String) (t : Time) : IssueComment :=
  { User := some { Login := some login }, Body := some body, CreatedAt := some t }

/-- A label event on `label` at `t`, by a human or by the bot. -/
def demoEvent (action : EventAction) (label : String) (t : Time) (human : Bool) : IssueEvent :=
  { Actor := "operator", Action := action, Label := label, CreatedAt := t, ActorIsHuman := human }

/-- A history, oldest first: the reviewer `k8s-merge-robot` cancels, then
approves in upper case with a trailing annotation; `mallory`, who is no
reviewer, cancels last. -/
def demoComments : List IssueComment :=
  [demoComment demoReviewer "/lgtm cancel" 1,
   demoComment demoReviewer "  /LGTM // looks good" 5,
   demoComment "mallory" "/lgtm cancel" 6]

/-- A history, oldest first: the reviewer `k8s-merge-robot` approves, then
cancels; `mallory`, who is no reviewer, approves last. -/
def demoCancelComments : List IssueComment :=
  [demoComment demoReviewer "/approve" 1,
   demoComment demoReviewer "/approve CANCEL" 5,
   demoComment "mallory" "/lgtm" 6]

/-- Manual label edits made exactly at time 5, and a later edit by the bot. -/
def demoEvents : List IssueEvent :=
  [demoEvent .LabelRemoved "lgtm" 5 true,
   demoEvent .LabelAdded "approved" 5 true,
   demoEvent .LabelRemoved "lgtm" 9 false,
   demoEvent .LabelAdded "lgtm" 9 false]

/-- The label set after one pass of `Munge` on the request. -/
def labelsAfterMunge (env : Env) (obj : MungeObject) : List String :=
  applyCalls obj.Labels (Munge env obj).calls

/-- An unlabeled pull request assigned to `k8s-merge-robot`, with a `/lgtm`
comment of that reviewer at 5 and a removal of the label by a human at 7. -/
def demoOverriddenPR : MungeObject :=
  { IsPR := true
    Assignees := [some { Login := some demoReviewer }]
    Assignee := none
    Labels := ["size/S"]
    LastModifiedTime := some 0
    Comments := [demoComment demoReviewer "/lgtm" 5]
    commentsErr := none
    Events := [demoEvent .LabelRemoved "lgtm" 7 true]
    eventsErr := none }

/-- An unlabeled pull request assigned to `k8s-merge-robot`, with a `/lgtm`
comment of that reviewer at 5; no label event. -/
def demoUnlabeledPR : MungeObject :=
  { demoOverriddenPR with Events := [] }

/-- A labeled pull request assigned to `k8s-merge-robot`, with a
`/lgtm cancel` comment of that reviewer at 5; no label event. -/
def demoLabeledPR : MungeObject :=
  { demoOverriddenPR with
    Labels := ["size/S", "lgtm", "approved"]
    Comments := [demoComment demoReviewer "/lgtm cancel" 5]
    Events := [] }

/-- A label removal of `lgtm` or `approved` performed by a human actor. -/
def isManualRemoval (ev : IssueEvent) : Bool :=
  decide (ev.Action = .LabelRemoved) &&
    (decide (ev.Label = "lgtm") || decide (ev.Label = "approved")) && ev.ActorIsHuman

/-- A label addition of `lgtm` or `approved` performed by a human actor. -/
def isManualAddition (ev : IssueEvent) : Bool :=
  decide (ev.Action = .LabelAdded) &&
    (decide (ev.Label = "lgtm") || decide (ev.Label = "approved")) && ev.ActorIsHuman

/-- A call of `Munge` and its helpers on the `MungeObject` that fetches data or
changes labels. -/
inductive Effect where
  | ListComments
  | GetEvents
  | Label (call : LabelCall)
  deriving DecidableEq, Repr

/-- Source `LGTMHandler.Munge`, read for the calls it makes on the object, in
order: `obj.ListComments` inside `getCommentsAfterLastModified`, then
`obj.GetEvents`, then the label calls of the scan. -/
def MungeEffects (env : Env) (obj : MungeObject) : List Effect :=
  if !obj.IsPR then []
  else
    let reviewers := getReviewers obj
    if reviewers.length = 0 then []
    else
      .ListComments ::
        match getCommentsAfterLastModified obj with
        | .panicked => []
        | .err _ => []
        | .ok comments =>
          .GetEvents ::
            match obj.GetEvents with
            | .panicked => []
            | .err _ => []
            | .ok events =>
              if !obj.HasLabel lgtmLabel then
                (addLGTMIfCommented env comments events reviewers).calls.map .Label
              else (removeLGTMIfCancelled env comments events reviewers).calls.map .Label

/-- The label call of an effect, if it is one. -/
def Effect.labelCall? : Effect → Option LabelCall
  | .Label call => some call
  | _ => none

/-- An event list in which the manual removals of `lgtm` and `approved` are at
3 and at 8; the later removals are by the bot or of another label, and the
addition at 12 is no removal. -/
def demoTimeline : List IssueEvent :=
  [demoEvent .LabelRemoved "lgtm" 3 true,
   demoEvent .LabelRemoved "approved" 8 true,
   demoEvent .LabelRemoved "lgtm" 9 false,
   demoEvent .LabelRemoved "size/S" 10 true,
   demoEvent .LabelAdded "lgtm" 12 true]

/-- The request `demoUnlabeledPR` when the comment fetch fails. -/
def demoCommentsFailPR : MungeObject :=
  { demoUnlabeledPR with commentsErr := some "comments: 502" }

/-- The request `demoUnlabeledPR` when the event fetch fails. -/
def demoEventsFailPR : MungeObject :=
  { demoUnlabeledPR with eventsErr := some "events: 502" }

/-- An issue that is no pull request, with the data of `demoUnlabeledPR`. -/
def demoIssue : MungeObject :=
  { demoUnlabeledPR with IsPR := false }

/-- The comment was created before `t`. -/
def createdBefore (t : Time) (c : IssueComment) : Bool :=
  match c.CreatedAt with
  | some created => decide (created < t)
  | none => false

/-- The request with another comment history. -/
def MungeObject.withComments (obj : MungeObject) (comments : List IssueComment) :
    MungeObject :=
  { obj with Comments := comments }

/-- An unlabeled pull request of the reviewer, modified at 5, with no comment
since. -/
def demoModifiedPR : MungeObject :=
  { demoUnlabeledPR with LastModifiedTime := some 5, Comments := [] }

/-- The class of a comment body. -/
inductive CommentClass where
  | merge
  | cancel
  | neither
  deriving DecidableEq, Repr

/-- The class of a field sequence by the tests of `addLGTMIfCommented`, in its
order: `isCancelComment` first, then `isMergeComment`; `none` is a runtime
failure of a test. -/
def classifyCancelFirst (env : Env) (fields : List String) : Option CommentClass :=
  match isCancelComment env fields with
  | none => none
  | some true => some .cancel
  | some false =>
    match isMergeComment env fields with
    | none => none
    | some true => some .merge
    | some false => some .neither

/-- The class of a field sequence by the tests of `removeLGTMIfCancelled`, in
its order: `isMergeComment` first, then `isCancelComment`. -/
def classifyMergeFirst (env : Env) (fields : List String) : Option CommentClass :=
  match isMergeComment env fields with
  | none => none
  | some true => some .merge
  | some false =>
    match isCancelComment env fields with
    | none => none
    | some true => some .cancel
    | some false => some .neither

/-- A comment of the reviewer without a body. -/
def demoNoBodyComment : IssueComment :=
  { User := some { Login := some demoReviewer }, Body := none, CreatedAt := some 5 }

/-- A `/lgtm` of the reviewer without a creation time. -/
def demoNoTimeComment : IssueComment :=
  { User := some { Login := some demoReviewer }, Body := some "/lgtm", CreatedAt := none }

/-- The request `demoUnlabeledPR` without a last-modified time. -/
def demoNoLastModifiedPR : MungeObject :=
  { demoUnlabeledPR with LastModifiedTime := none }

/-- The variant of `getFields` that uses the result of `strings.TrimSpace`:
`strings.Fields(strings.TrimSpace(cmd))` for the text `cmd` before the first
`"//"`. -/
def getFieldsTrimmed (commentBody : String) : Option (List String) :=
  match (stringsSplit commentBody)[0]? with
  | none => none
  | some cmd => some (stringsFields (stringsTrimSpace cmd))

/-- A comment without author, body and creation time. -/
def demoAnonymousComment : IssueComment :=
  { User := none, Body := none, CreatedAt := none }

/-- The history `demoComments` followed by a comment without author, body and
creation time. -/
def demoMixedComments : List IssueComment :=
  demoComments ++ [demoAnonymousComment]

/-- The history `demoCancelComments` followed by a comment without author,
body and creation time. -/
def demoMixedCancelComments : List IssueComment :=
  demoCancelComments ++ [demoAnonymousComment]

/-- A `/lgtm` of the reviewer at 1, then a comment of the reviewer without a
body. -/
def demoPanicComments : List IssueComment :=
  [demoComment demoReviewer "/lgtm" 1, demoNoBodyComment]

/-- A `/lgtm cancel` of the reviewer at 1, then a comment of the reviewer
without a body. -/
def demoPanicCancelComments : List IssueComment :=
  [demoComment demoReviewer "/lgtm cancel" 1, demoNoBodyComment]

/-! ## Parsing and classification -/

theorem splitSlashes_ne_nil (l : List Char) : splitSlashes l ≠ [] := by
  induction l using splitSlashes.induct with
  | case1 => simp [splitSlashes]
  | case2 c => simp [splitSlashes]
  | case3 c d rest h ih => simp [splitSlashes, h]
  | case4 c d rest h ih =>
    simp only [splitSlashes, h, if_false]
    cases hs : splitSlashes (d :: rest) <;> simp [consHead]

/-- The text before the first `"//"`: first piece of `strings.Split`. -/
theorem getFields_eq (body : String) :
    getFields body = some (stringsFields (String.mk ((splitSlashes body.data).headD []))) := by
  unfold getFields stringsSplit
  cases hs : splitSlashes body.data with
  | nil => exact absurd hs (splitSlashes_ne_nil _)
  | cons p ps => simp

theorem isMergeComment_eq (env : Env) (fields : List String) :
    isMergeComment env fields =
      some (match fields with
        | [f] => isMergeCommand env f
        | _ => false) := by
  unfold isMergeComment
  match fields with
  | [] => simp
  | [f] => simp
  | _ :: _ :: _ => simp

theorem isCancelComment_eq (env : Env) (fields : List String) :
    isCancelComment env fields =
      some (match fields with
        | [f0, f1] =>
          decide (stringsToLower env.caseRanges f1 = cancelCommandModifer) &&
            isMergeCommand env f0
        | _ => false) := by
  unfold isCancelComment
  match fields with
  | [] => simp
  | [f] => simp
  | [f0, f1] =>
    by_cases h : stringsToLower env.caseRanges f1 = cancelCommandModifer <;> simp [h]
  | _ :: _ :: _ :: _ => simp

theorem isMergeCommand_iff (env : Env) (cmd : String) :
    isMergeCommand env cmd = true ↔
      stringsToLower env.caseRanges cmd = "/lgtm" ∨
        stringsToLower env.caseRanges cmd = "/approve" := by
  unfold isMergeCommand lgtmCommand approveCommand
  by_cases h1 : stringsToLower env.caseRanges cmd = "/lgtm"
  · simp [h1]
  · by_cases h2 : stringsToLower env.caseRanges cmd = "/approve" <;> simp [h1, h2]

theorem merge_cancel_exclusive (env : Env) (fields : List String)
    (h : isMergeComment env fields = some true) :
    isCancelComment env fields = some false := by
  rw [isMergeComment_eq] at h
  rw [isCancelComment_eq]
  match fields with
  | [] => simp
  | [f] => simp
  | [f0, f1] => simp at h
  | _ :: _ :: _ :: _ => simp

theorem isMergeBody_true_cancel_false (env : Env) (body : String)
    (h : isMergeBody env body = true) : isCancelBody env body = false := by
  unfold isMergeBody at h
  unfold isCancelBody
  rw [getFields_eq] at h ⊢
  simp only [Option.some_bind, beq_iff_eq] at h
  simp only [Option.some_bind]
  rw [merge_cancel_exclusive env _ h]
  rfl

/-! ## The two loops in terms of the scan -/

theorem addLGTMLoop_eq_scan (env : Env) (events : List IssueEvent) (reviewers : UserSet)
    (l : List IssueComment) :
    addLGTMLoop env events reviewers l = addOfVerdict events (scan env reviewers l) := by
  induction l with
  | nil => simp [addLGTMLoop, scan, addOfVerdict]
  | cons c older ih =>
    unfold addLGTMLoop scan
    by_cases hv : env.IsValidUser c.User = true
    · by_cases ha : isApprovedToAlterLabels env c.User reviewers = true
      · have hauth : isAuthorized env reviewers c = true := by simp [isAuthorized, hv, ha]
        simp only [hv, ha, hauth, Bool.not_true, if_true]
        cases hb : c.Body with
        | none => simp [addOfVerdict]
        | some body =>
          simp only [Bool.false_eq_true, if_false]
          unfold isCancelBody isMergeBody
          rw [getFields_eq]
          simp only [Option.some_bind]
          generalize stringsFields _ = fields
          obtain ⟨bm, hm⟩ : ∃ b, isMergeComment env fields = some b :=
            ⟨_, isMergeComment_eq env fields⟩
          obtain ⟨bc, hc⟩ : ∃ b, isCancelComment env fields = some b :=
            ⟨_, isCancelComment_eq env fields⟩
          simp only [hm, hc]
          cases bc
          · cases bm
            · simpa using ih
            · simp [addOfVerdict, addFinish]
          · simp [addOfVerdict]
      · have hauth : isAuthorized env reviewers c = false := by simp [isAuthorized, ha]
        simp [hv, ha, hauth, ih]
    · have hauth : isAuthorized env reviewers c = false := by simp [isAuthorized, hv]
      simp [hv, hauth, ih]

theorem removeLGTMLoop_eq_scan (env : Env) (events : List IssueEvent) (reviewers : UserSet)
    (l : List IssueComment) :
    removeLGTMLoop env events reviewers l = removeOfVerdict events (scan env reviewers l) := by
  induction l with
  | nil => simp [removeLGTMLoop, scan, removeOfVerdict]
  | cons c older ih =>
    unfold removeLGTMLoop scan
    by_cases hv : env.IsValidUser c.User = true
    · by_cases ha : isApprovedToAlterLabels env c.User reviewers = true
      · have hauth : isAuthorized env reviewers c = true := by simp [isAuthorized, hv, ha]
        simp only [hv, ha, hauth, Bool.not_true, if_true]
        cases hb : c.Body with
        | none => simp [removeOfVerdict]
        | some body =>
          simp only [Bool.false_eq_true, if_false]
          unfold isCancelBody isMergeBody
          rw [getFields_eq]
          simp only [Option.some_bind]
          generalize stringsFields _ = fields
          obtain ⟨bm, hm⟩ : ∃ b, isMergeComment env fields = some b :=
            ⟨_, isMergeComment_eq env fields⟩
          obtain ⟨bc, hc⟩ : ∃ b, isCancelComment env fields = some b :=
            ⟨_, isCancelComment_eq env fields⟩
          cases bm
          · simp only [hm, hc]
            cases bc
            · simpa using ih
            · simp [removeOfVerdict, removeFinish]
          · have hc2 := merge_cancel_exclusive env fields hm
            simp only [hm, hc2]
            simp [removeOfVerdict]
      · have hauth : isAuthorized env reviewers c = false := by simp [isAuthorized, ha]
        simp [hv, ha, hauth, ih]
    · have hauth : isAuthorized env reviewers c = false := by simp [isAuthorized, hv]
      simp [hv, hauth, ih]

theorem scan_eq_verdictOf (env : Env) (reviewers : UserSet) (l : List IssueComment)
    (hbody : ∀ c ∈ l, c.Body.isSome = true) :
    scan env reviewers l =
      verdictOf env ((l.filter (isAuthorizedCommand env reviewers)).head?) := by
  induction l with
  | nil => simp [scan, verdictOf]
  | cons c older ih =>
    have ih2 := ih (fun d hd => hbody d (List.mem_cons_of_mem _ hd))
    have hb := hbody c (List.mem_cons_self _ _)
    obtain ⟨body, hbd⟩ := Option.isSome_iff_exists.mp hb
    unfold scan
    by_cases hauth : isAuthorized env reviewers c = true
    · simp only [hauth, if_true, hbd]
      by_cases hcan : isCancelBody env body = true
      · have hcmd : isAuthorizedCommand env reviewers c = true := by
          simp [isAuthorizedCommand, hauth, isCancelCommandComment, hbd, hcan]
        simp [hcan, List.filter_cons, hcmd, verdictOf, isCancelCommandComment, hbd]
      · by_cases hmer : isMergeBody env body = true
        · have hcmd : isAuthorizedCommand env reviewers c = true := by
            simp [isAuthorizedCommand, hauth, isMergeCommandComment, hbd, hmer]
          simp [hcan, hmer, List.filter_cons, hcmd, verdictOf, isCancelCommandComment, hbd]
        · have hcmd : isAuthorizedCommand env reviewers c = false := by
            simp [isAuthorizedCommand, isMergeCommandComment, isCancelCommandComment, hbd,
              hmer, hcan]
          simp [hcan, hmer, List.filter_cons, hcmd, ih2]
    · have hcmd : isAuthorizedCommand env reviewers c = false := by
        simp [isAuthorizedCommand, hauth]
      simp [hauth, List.filter_cons, hcmd, ih2]

theorem scan_reverse_eq (env : Env) (reviewers : UserSet) (comments : List IssueComment)
    (hbody : ∀ c ∈ comments, c.Body.isSome = true) :
    scan env reviewers comments.reverse =
      verdictOf env (lastAuthorizedCommand env reviewers comments) := by
  rw [scan_eq_verdictOf env reviewers comments.reverse
    (fun c hc => hbody c (List.mem_reverse.mp hc))]
  simp [lastAuthorizedCommand, List.filter_reverse]

theorem lastAuthorizedCommand_mem (env : Env) (reviewers : UserSet)
    (comments : List IssueComment) (c : IssueComment)
    (h : lastAuthorizedCommand env reviewers comments = some c) :
    c ∈ comments ∧ isAuthorizedCommand env reviewers c = true := by
  unfold lastAuthorizedCommand at h
  have hm := List.mem_of_getLast?_eq_some h
  simpa [List.mem_filter] using hm

theorem scan_filter_authorized (env : Env) (reviewers : UserSet) (l : List IssueComment) :
    scan env reviewers (l.filter (isAuthorized env reviewers)) = scan env reviewers l := by
  induction l with
  | nil => rfl
  | cons c older ih =>
    by_cases hauth : isAuthorized env reviewers c = true
    · simp only [List.filter_cons, hauth, if_true]
      unfold scan
      simp only [hauth, if_true, ih]
    · simp only [List.filter_cons, hauth]
      conv_rhs => unfold scan
      simp [hauth, ih]

theorem isMergeCommandComment_not_cancel (env : Env) (c : IssueComment)
    (h : isMergeCommandComment env c = true) : isCancelCommandComment env c = false := by
  unfold isMergeCommandComment at h
  unfold isCancelCommandComment
  cases hb : c.Body with
  | none => rfl
  | some body =>
    rw [hb] at h
    exact isMergeBody_true_cancel_false env body h

/-- Outcome of `addLGTMIfCommented` on complete comments, from the most recent
authorized command comment. -/
theorem addLGTMIfCommented_complete (env : Env) (comments : List IssueComment)
    (events : List IssueEvent) (reviewers : UserSet)
    (hcomplete : ∀ c ∈ comments, c.Complete = true) :
    addLGTMIfCommented env comments events reviewers =
      addOfVerdict events (verdictOf env (lastAuthorizedCommand env reviewers comments)) := by
  unfold addLGTMIfCommented
  rw [addLGTMLoop_eq_scan, scan_reverse_eq]
  intro c hc
  have := hcomplete c hc
  simp only [IssueComment.Complete, Bool.and_eq_true] at this
  exact this.1.2

theorem removeLGTMIfCancelled_complete (env : Env) (comments : List IssueComment)
    (events : List IssueEvent) (reviewers : UserSet)
    (hcomplete : ∀ c ∈ comments, c.Complete = true) :
    removeLGTMIfCancelled env comments events reviewers =
      removeOfVerdict events (verdictOf env (lastAuthorizedCommand env reviewers comments)) := by
  unfold removeLGTMIfCancelled
  rw [removeLGTMLoop_eq_scan, scan_reverse_eq]
  intro c hc
  have := hcomplete c hc
  simp only [IssueComment.Complete, Bool.and_eq_true] at this
  exact this.1.2

/-- The end of `addLGTMIfCommented` on a complete comment. -/
theorem addFinish_complete (events : List IssueEvent) (c : IssueComment)
    (hc : c.Complete = true) :
    ∃ created, c.CreatedAt = some created ∧
      addFinish events c =
        if ∀ t, manuallyRemoveMerableLabelTime events = some t → ¬ created < t then
          .returned [.AddLabels [lgtmLabel, approveLabel]]
        else .returned [] := by
  simp only [IssueComment.Complete, Bool.and_eq_true] at hc
  obtain ⟨⟨hl, _⟩, ht⟩ := hc
  obtain ⟨login, hl⟩ := Option.isSome_iff_exists.mp hl
  obtain ⟨created, ht⟩ := Option.isSome_iff_exists.mp ht
  refine ⟨created, ht, ?_⟩
  unfold addFinish
  cases hr : manuallyRemoveMerableLabelTime events with
  | none => simp [hl]
  | some t =>
    by_cases hlt : created < t
    · simp [hl, ht, Time.After, hlt, not_le.mpr hlt]
    · simp [hl, ht, Time.After, hlt, not_lt.mp hlt]

theorem removeFinish_complete (events : List IssueEvent) (c : IssueComment)
    (hc : c.Complete = true) :
    ∃ created, c.CreatedAt = some created ∧
      removeFinish events c =
        if ∀ t, manuallyAddMergableLabelTime events = some t → ¬ created < t then
          .returned [.RemoveLabel lgtmLabel]
        else .returned [] := by
  simp only [IssueComment.Complete, Bool.and_eq_true] at hc
  obtain ⟨⟨hl, _⟩, ht⟩ := hc
  obtain ⟨login, hl⟩ := Option.isSome_iff_exists.mp hl
  obtain ⟨created, ht⟩ := Option.isSome_iff_exists.mp ht
  refine ⟨created, ht, ?_⟩
  unfold removeFinish
  cases hr : manuallyAddMergableLabelTime events with
  | none => simp [hl]
  | some t =>
    by_cases hlt : created < t
    · simp [hl, ht, Time.After, hlt, not_le.mpr hlt]
    · simp [hl, ht, Time.After, hlt, not_lt.mp hlt]

/-! ## The two scans (C1, C2) -/

theorem addLGTMIfCommented_filter (env : Env) (comments : List IssueComment)
    (events : List IssueEvent) (reviewers : UserSet) :
    addLGTMIfCommented env (comments.filter (isAuthorized env reviewers)) events reviewers =
      addLGTMIfCommented env comments events reviewers := by
  unfold addLGTMIfCommented
  rw [addLGTMLoop_eq_scan, addLGTMLoop_eq_scan, ← List.filter_reverse, scan_filter_authorized]

theorem removeLGTMIfCancelled_filter (env : Env) (comments : List IssueComment)
    (events : List IssueEvent) (reviewers : UserSet) :
    removeLGTMIfCancelled env (comments.filter (isAuthorized env reviewers)) events
        reviewers =
      removeLGTMIfCancelled env comments events reviewers := by
  unfold removeLGTMIfCancelled
  rw [removeLGTMLoop_eq_scan, removeLGTMLoop_eq_scan, ← List.filter_reverse,
    scan_filter_authorized]

theorem lastAuthorizedCommand_filter (env : Env) (reviewers : UserSet)
    (comments : List IssueComment) :
    lastAuthorizedCommand env reviewers (comments.filter (isAuthorized env reviewers)) =
      lastAuthorizedCommand env reviewers comments := by
  unfold lastAuthorizedCommand
  rw [List.filter_filter]
  congr 2
  funext c
  unfold isAuthorizedCommand
  cases isAuthorized env reviewers c <;> simp

theorem authorized_filter_complete (env : Env) (reviewers : UserSet)
    (comments : List IssueComment)
    (hauth : ∀ c ∈ comments, isAuthorized env reviewers c = true → c.Complete = true) :
    ∀ c ∈ comments.filter (isAuthorized env reviewers), c.Complete = true :=
  fun c hc => hauth c (List.mem_of_mem_filter hc) (List.of_mem_filter hc)

theorem addLGTMIfCommented_dichotomy (env : Env) (comments : List IssueComment)
    (events : List IssueEvent) (reviewers : UserSet)
    (hcomplete : ∀ c ∈ comments, c.Complete = true) :
    ((∃ c created, lastAuthorizedCommand env reviewers comments = some c ∧
        isMergeCommandComment env c = true ∧ c.CreatedAt = some created ∧
        ∀ t, manuallyRemoveMerableLabelTime events = some t → t.After created = false) →
      addLGTMIfCommented env comments events reviewers =
        .returned [.AddLabels [lgtmLabel, approveLabel]]) ∧
    ((¬ ∃ c created, lastAuthorizedCommand env reviewers comments = some c ∧
        isMergeCommandComment env c = true ∧ c.CreatedAt = some created ∧
        ∀ t, manuallyRemoveMerableLabelTime events = some t → t.After created = false) →
      addLGTMIfCommented env comments events reviewers = .returned []) := by
  rw [addLGTMIfCommented_complete env comments events reviewers hcomplete]
  cases hlast : lastAuthorizedCommand env reviewers comments with
  | none => simp [verdictOf, addOfVerdict]
  | some c =>
    obtain ⟨hmem, hcmd⟩ := lastAuthorizedCommand_mem env reviewers comments c hlast
    by_cases hcan : isCancelCommandComment env c = true
    · have hnm : isMergeCommandComment env c ≠ true := by
        intro hm
        rw [isMergeCommandComment_not_cancel env c hm] at hcan
        exact Bool.false_ne_true hcan
      simp [verdictOf, addOfVerdict, hcan, hnm]
    · have hm : isMergeCommandComment env c = true := by
        simp only [isAuthorizedCommand, Bool.and_eq_true, Bool.or_eq_true] at hcmd
        rcases hcmd.2 with h | h
        · exact h
        · exact absurd h hcan
      obtain ⟨created, hcr, hfin⟩ := addFinish_complete events c (hcomplete c hmem)
      simp only [verdictOf, hcan, addOfVerdict, hfin, Bool.false_eq_true, if_false]
      by_cases hov : ∀ t, manuallyRemoveMerableLabelTime events = some t → ¬ created < t
      · rw [if_pos hov]
        refine ⟨fun _ => rfl, fun hne => absurd ⟨c, created, rfl, hm, hcr, ?_⟩ hne⟩
        intro t ht
        simpa [Time.After] using hov t ht
      · rw [if_neg hov]
        refine ⟨?_, fun _ => rfl⟩
        rintro ⟨c2, created2, hc2, _, hcr2, hov2⟩
        simp only [Option.some.injEq] at hc2
        subst hc2
        rw [hcr] at hcr2
        simp only [Option.some.injEq] at hcr2
        subst hcr2
        exact absurd (fun t ht => by simpa [Time.After] using hov2 t ht) hov

theorem removeLGTMIfCancelled_dichotomy (env : Env) (comments : List IssueComment)
    (events : List IssueEvent) (reviewers : UserSet)
    (hcomplete : ∀ c ∈ comments, c.Complete = true) :
    ((∃ c created, lastAuthorizedCommand env reviewers comments = some c ∧
        isCancelCommandComment env c = true ∧ c.CreatedAt = some created ∧
        ∀ t, manuallyAddMergableLabelTime events = some t → t.After created = false) →
      removeLGTMIfCancelled env comments events reviewers =
        .returned [.RemoveLabel lgtmLabel]) ∧
    ((¬ ∃ c created, lastAuthorizedCommand env reviewers comments = some c ∧
        isCancelCommandComment env c = true ∧ c.CreatedAt = some created ∧
        ∀ t, manuallyAddMergableLabelTime events = some t → t.After created = false) →
      removeLGTMIfCancelled env comments events reviewers = .returned []) := by
  rw [removeLGTMIfCancelled_complete env comments events reviewers hcomplete]
  cases hlast : lastAuthorizedCommand env reviewers comments with
  | none => simp [verdictOf, removeOfVerdict]
  | some c =>
    obtain ⟨hmem, hcmd⟩ := lastAuthorizedCommand_mem env reviewers comments c hlast
    by_cases hcan : isCancelCommandComment env c = true
    · obtain ⟨created, hcr, hfin⟩ := removeFinish_complete events c (hcomplete c hmem)
      simp only [verdictOf, hcan, removeOfVerdict, hfin, if_true]
      by_cases hov : ∀ t, manuallyAddMergableLabelTime events = some t → ¬ created < t
      · rw [if_pos hov]
        refine ⟨fun _ => rfl, fun hne => absurd ⟨c, created, rfl, hcan, hcr, ?_⟩ hne⟩
        intro t ht
        simpa [Time.After] using hov t ht
      · rw [if_neg hov]
        refine ⟨?_, fun _ => rfl⟩
        rintro ⟨c2, created2, hc2, _, hcr2, hov2⟩
        simp only [Option.some.injEq] at hc2
        subst hc2
        rw [hcr] at hcr2
        simp only [Option.some.injEq] at hcr2
        subst hcr2
        exact absurd (fun t ht => by simpa [Time.After] using hov2 t ht) hov
    · simp [verdictOf, removeOfVerdict, hcan]

/-- C1 as stated fails: in `demoPanicComments` the most recent authorized
command comment is the merge-command created at 1 and no manual removal
exists, yet the more recent comment of the reviewer has no body, the scan
dereferences it first, and no `AddLabels` is issued. -/
theorem addLGTMIfCommented_adds_iff_counterexample :
    lastAuthorizedCommand demoEnv [demoReviewer] demoPanicComments =
        some (demoComment demoReviewer "/lgtm" 1) ∧
      isMergeCommandComment demoEnv (demoComment demoReviewer "/lgtm" 1) = true ∧
      manuallyRemoveMerableLabelTime [] = none ∧
      addLGTMIfCommented demoEnv demoPanicComments [] [demoReviewer] = .panicked ∧
      (addLGTMIfCommented demoEnv demoPanicComments [] [demoReviewer]).calls = [] := by
  decide

/-- C1, amended: on a comment list (oldest first) in which every comment by a
valid author approved to alter labels carries author login, body and creation
time, `addLGTMIfCommented` issues `AddLabels` if and only if there is an
authorized command comment, the most recent one is a merge-command and
`manuallyRemoveMerableLabelTime(events)` is absent or not strictly after that
comment's creation time; then the run is the single call
`AddLabels([lgtm, approved])`, and in every other case it returns without a
label call. -/
theorem addLGTMIfCommented_adds_iff (env : Env) (comments : List IssueComment)
    (events : List IssueEvent) (reviewers : UserSet)
    (hauth : ∀ c ∈ comments, isAuthorized env reviewers c = true → c.Complete = true) :
    ((∃ labels, LabelCall.AddLabels labels ∈
          (addLGTMIfCommented env comments events reviewers).calls) ↔
      ∃ c created, lastAuthorizedCommand env reviewers comments = some c ∧
        isMergeCommandComment env c = true ∧ c.CreatedAt = some created ∧
        ∀ t, manuallyRemoveMerableLabelTime events = some t → t.After created = false) ∧
    ((∃ c created, lastAuthorizedCommand env reviewers comments = some c ∧
        isMergeCommandComment env c = true ∧ c.CreatedAt = some created ∧
        ∀ t, manuallyRemoveMerableLabelTime events = some t → t.After created = false) →
      addLGTMIfCommented env comments events reviewers =
        .returned [.AddLabels [lgtmLabel, approveLabel]]) ∧
    ((¬ ∃ c created, lastAuthorizedCommand env reviewers comments = some c ∧
        isMergeCommandComment env c = true ∧ c.CreatedAt = some created ∧
        ∀ t, manuallyRemoveMerableLabelTime events = some t → t.After created = false) →
      addLGTMIfCommented env comments events reviewers = .returned []) := by
  obtain ⟨hyes, hno⟩ :=
    addLGTMIfCommented_dichotomy env (comments.filter (isAuthorized env reviewers)) events
      reviewers (authorized_filter_complete env reviewers comments hauth)
  rw [addLGTMIfCommented_filter, lastAuthorizedCommand_filter] at hyes hno
  refine ⟨⟨?_, ?_⟩, hyes, hno⟩
  · intro hadd
    by_contra hcond
    rw [hno hcond] at hadd
    simp [Outcome.calls] at hadd
  · intro hcond
    rw [hyes hcond]
    exact ⟨[lgtmLabel, approveLabel], by simp [Outcome.calls]⟩

/-- C1 amended, evaluated: `demoMixedComments` ends with a comment without
author, body and time, which is skipped; the most recent authorized command is
the merge-command created at 5, and the manual removal at exactly 5 does not
suppress the add. -/
theorem addLGTMIfCommented_adds_iff_witness :
    (∀ c ∈ demoMixedComments,
        isAuthorized demoEnv [demoReviewer] c = true → c.Complete = true) ∧
      addLGTMIfCommented demoEnv demoMixedComments demoEvents [demoReviewer] =
        .returned [.AddLabels [lgtmLabel, approveLabel]] :=
  ⟨by decide,
    (addLGTMIfCommented_adds_iff demoEnv demoMixedComments demoEvents [demoReviewer]
        (by decide)).2.1
      ⟨demoComment demoReviewer "  /LGTM // looks good" 5, 5, by decide, by decide, by decide,
        fun t ht => by
          have h5 : manuallyRemoveMerableLabelTime demoEvents = some 5 := by decide
          rw [h5] at ht
          simp only [Option.some.injEq] at ht
          subst ht
          decide⟩⟩

/-- C2 as stated fails: in `demoPanicCancelComments` the most recent
authorized command comment is the cancel-command created at 1 and no manual
addition exists, yet the more recent comment of the reviewer has no body, the
scan dereferences it first, and no `RemoveLabel` is issued. -/
theorem removeLGTMIfCancelled_removes_iff_counterexample :
    lastAuthorizedCommand demoEnv [demoReviewer] demoPanicCancelComments =
        some (demoComment demoReviewer "/lgtm cancel" 1) ∧
      isCancelCommandComment demoEnv (demoComment demoReviewer "/lgtm cancel" 1) = true ∧
      manuallyAddMergableLabelTime [] = none ∧
      removeLGTMIfCancelled demoEnv demoPanicCancelComments [] [demoReviewer] = .panicked ∧
      (removeLGTMIfCancelled demoEnv demoPanicCancelComments [] [demoReviewer]).calls =
        [] := by
  decide

/-- C2, amended: on a comment list (oldest first) in which every comment by a
valid author approved to alter labels carries author login, body and creation
time, `removeLGTMIfCancelled` issues `RemoveLabel` if and only if there is an
authorized command comment, the most recent one is a cancel-command and
`manuallyAddMergableLabelTime(events)` is absent or not strictly after that
comment's creation time; then the run is the single call `RemoveLabel(lgtm)`,
and in every other case (a more recent authorized merge-command included) it
returns without a label call. -/
theorem removeLGTMIfCancelled_removes_iff (env : Env) (comments : List IssueComment)
    (events : List IssueEvent) (reviewers : UserSet)
    (hauth : ∀ c ∈ comments, isAuthorized env reviewers c = true → c.Complete = true) :
    ((∃ label, LabelCall.RemoveLabel label ∈
          (removeLGTMIfCancelled env comments events reviewers).calls) ↔
      ∃ c created, lastAuthorizedCommand env reviewers comments = some c ∧
        isCancelCommandComment env c = true ∧ c.CreatedAt = some created ∧
        ∀ t, manuallyAddMergableLabelTime events = some t → t.After created = false) ∧
    ((∃ c created, lastAuthorizedCommand env reviewers comments = some c ∧
        isCancelCommandComment env c = true ∧ c.CreatedAt = some created ∧
        ∀ t, manuallyAddMergableLabelTime events = some t → t.After created = false) →
      removeLGTMIfCancelled env comments events reviewers =
        .returned [.RemoveLabel lgtmLabel]) ∧
    ((¬ ∃ c created, lastAuthorizedCommand env reviewers comments = some c ∧
        isCancelCommandComment env c = true ∧ c.CreatedAt = some created ∧
        ∀ t, manuallyAddMergableLabelTime events = some t → t.After created = false) →
      removeLGTMIfCancelled env comments events reviewers = .returned []) := by
  obtain ⟨hyes, hno⟩ :=
    removeLGTMIfCancelled_dichotomy env (comments.filter (isAuthorized env reviewers)) events
      reviewers (authorized_filter_complete env reviewers comments hauth)
  rw [removeLGTMIfCancelled_filter, lastAuthorizedCommand_filter] at hyes hno
  refine ⟨⟨?_, ?_⟩, hyes, hno⟩
  · intro hrem
    by_contra hcond
    rw [hno hcond] at hrem
    simp [Outcome.calls] at hrem
  · intro hcond
    rw [hyes hcond]
    exact ⟨lgtmLabel, by simp [Outcome.calls]⟩

/-- C2 amended, evaluated: `demoMixedCancelComments` ends with a comment
without author, body and time, which is skipped; the most recent authorized
command is the cancel-command created at 5, and the manual addition at exactly
5 does not suppress the removal. -/
theorem removeLGTMIfCancelled_removes_iff_witness :
    (∀ c ∈ demoMixedCancelComments,
        isAuthorized demoEnv [demoReviewer] c = true → c.Complete = true) ∧
      removeLGTMIfCancelled demoEnv demoMixedCancelComments demoEvents [demoReviewer] =
        .returned [.RemoveLabel lgtmLabel] :=
  ⟨by decide,
    (removeLGTMIfCancelled_removes_iff demoEnv demoMixedCancelComments demoEvents
        [demoReviewer] (by decide)).2.1
      ⟨demoComment demoReviewer "/approve CANCEL" 5, 5, by decide, by decide, by decide,
        fun t ht => by
          have h5 : manuallyAddMergableLabelTime demoEvents = some 5 := by decide
          rw [h5] at ht
          simp only [Option.some.injEq] at ht
          subst ht
          decide⟩⟩

/-! ## One pass of `Munge` -/

theorem UserSet.Has_ne_nil (s : UserSet) (user : Option User) (h : s.Has user = true) :
    s ≠ [] := by
  rintro rfl
  unfold UserSet.Has at h
  split at h <;> simp at h

theorem isAuthorized_reviewers_ne_nil (env : Env) (reviewers : UserSet) (c : IssueComment)
    (h : isAuthorized env reviewers c = true) : reviewers ≠ [] := by
  simp only [isAuthorized, isApprovedToAlterLabels, Bool.and_eq_true] at h
  exact UserSet.Has_ne_nil reviewers c.User h.2.2

/-- With no reviewer nobody is authorized, so the scan is exhausted. -/
theorem scan_no_reviewers (env : Env) (l : List IssueComment) :
    scan env [] l = .exhausted := by
  induction l with
  | nil => rfl
  | cons c older ih =>
    have hauth : isAuthorized env [] c = false := by
      cases h : isAuthorized env [] c with
      | false => rfl
      | true => exact absurd rfl (isAuthorized_reviewers_ne_nil env [] c h)
    unfold scan
    simp [hauth, ih]

/-- The pass once both fetches have succeeded: the branch on the label. With
no reviewer the early return issues no call, and neither does either scan. -/
theorem Munge_fetched (env : Env) (obj : MungeObject) (comments : List IssueComment)
    (events : List IssueEvent) (hpr : obj.IsPR = true)
    (hcs : getCommentsAfterLastModified obj = .ok comments)
    (hev : obj.GetEvents = .ok events) :
    Munge env obj =
      if obj.HasLabel lgtmLabel then
        removeLGTMIfCancelled env comments events (getReviewers obj)
      else addLGTMIfCommented env comments events (getReviewers obj) := by
  unfold Munge
  simp only [hpr, hcs, hev, Bool.not_true, Bool.false_eq_true, if_false]
  by_cases hrev : (getReviewers obj).length = 0
  · have hnil : getReviewers obj = [] := List.length_eq_zero.mp hrev
    simp only [hrev, if_true]
    simp [hnil, addLGTMIfCommented, removeLGTMIfCancelled, addLGTMLoop_eq_scan,
      removeLGTMLoop_eq_scan, scan_no_reviewers, addOfVerdict, removeOfVerdict]
  · simp only [hrev, if_false]
    cases hl : obj.HasLabel lgtmLabel <;> simp

theorem applyCalls_nil (labels : List String) : applyCalls labels [] = labels := rfl

theorem lgtm_mem_applyCalls_add (labels : List String) :
    lgtmLabel ∈ applyCalls labels [.AddLabels [lgtmLabel, approveLabel]] := by
  simp only [applyCalls, List.foldl_cons, List.foldl_nil, applyCall, List.mem_append,
    List.mem_filter, decide_eq_true_eq]
  by_cases h : lgtmLabel ∈ labels
  · exact Or.inl h
  · exact Or.inr ⟨by simp, h⟩

theorem lgtm_not_mem_applyCalls_remove (labels : List String) :
    lgtmLabel ∉ applyCalls labels [.RemoveLabel lgtmLabel] := by
  simp [applyCalls, applyCall, List.mem_filter]

/-- C3 as stated fails: on `demoOverriddenPR` the most recent authorized
command comment is the merge-command `/lgtm` created at 5, yet the manual
removal at 7 makes the pass issue no call and the label `lgtm` is absent after
the pass. -/
theorem Munge_most_recent_wins_counterexample :
    demoOverriddenPR.IsPR = true ∧
      getCommentsAfterLastModified demoOverriddenPR = .ok [demoComment demoReviewer "/lgtm" 5] ∧
      lastAuthorizedCommand demoEnv (getReviewers demoOverriddenPR)
          [demoComment demoReviewer "/lgtm" 5] = some (demoComment demoReviewer "/lgtm" 5) ∧
      isMergeCommandComment demoEnv (demoComment demoReviewer "/lgtm" 5) = true ∧
      Munge demoEnv demoOverriddenPR = .returned [] ∧
      lgtmLabel ∉ labelsAfterMunge demoEnv demoOverriddenPR := by
  decide

/-- C3, amended: on a pull request whose comments (complete, oldest first) and
events are fetched, if the most recent authorized command comment is a
merge-command then `lgtm` is present after the pass, unless the label was
absent and a manual removal is strictly after the comment's creation time; if
it is a cancel-command then `lgtm` is absent after the pass, unless the label
was present and a manual addition is strictly after the comment's creation
time; and if there is no authorized command comment the label set is
unchanged. -/
theorem Munge_most_recent_wins (env : Env) (obj : MungeObject)
    (comments : List IssueComment) (events : List IssueEvent)
    (hpr : obj.IsPR = true)
    (hcs : getCommentsAfterLastModified obj = .ok comments)
    (hev : obj.GetEvents = .ok events)
    (hcomplete : ∀ c ∈ comments, c.Complete = true) :
    (∀ c created, lastAuthorizedCommand env (getReviewers obj) comments = some c →
        isMergeCommandComment env c = true → c.CreatedAt = some created →
        (obj.HasLabel lgtmLabel = true ∨
          ∀ t, manuallyRemoveMerableLabelTime events = some t → t.After created = false) →
        lgtmLabel ∈ labelsAfterMunge env obj) ∧
    (∀ c created, lastAuthorizedCommand env (getReviewers obj) comments = some c →
        isCancelCommandComment env c = true → c.CreatedAt = some created →
        (obj.HasLabel lgtmLabel = false ∨
          ∀ t, manuallyAddMergableLabelTime events = some t → t.After created = false) →
        lgtmLabel ∉ labelsAfterMunge env obj) ∧
    (lastAuthorizedCommand env (getReviewers obj) comments = none →
        labelsAfterMunge env obj = obj.Labels) := by
  have hM := Munge_fetched env obj comments events hpr hcs hev
  obtain ⟨haddY, haddN⟩ :=
    addLGTMIfCommented_dichotomy env comments events (getReviewers obj) hcomplete
  obtain ⟨hremY, hremN⟩ :=
    removeLGTMIfCancelled_dichotomy env comments events (getReviewers obj) hcomplete
  unfold labelsAfterMunge
  refine ⟨?_, ?_, ?_⟩
  · intro c created hlast hm hcr hor
    cases hl : obj.HasLabel lgtmLabel with
    | true =>
      have hno : removeLGTMIfCancelled env comments events (getReviewers obj) =
          .returned [] := by
        apply hremN
        rintro ⟨c2, _, hc2, hcan2, _, _⟩
        rw [hlast] at hc2
        simp only [Option.some.injEq] at hc2
        subst hc2
        rw [isMergeCommandComment_not_cancel env c hm] at hcan2
        exact Bool.false_ne_true hcan2
      rw [hM, hl, if_pos rfl, hno]
      simpa [Outcome.calls, applyCalls_nil, MungeObject.HasLabel] using hl
    | false =>
      have hov : ∀ t, manuallyRemoveMerableLabelTime events = some t →
          t.After created = false := by
        rcases hor with h | h
        · rw [hl] at h; exact absurd h Bool.false_ne_true
        · exact h
      rw [hM, hl, if_neg Bool.false_ne_true, haddY ⟨c, created, hlast, hm, hcr, hov⟩]
      exact lgtm_mem_applyCalls_add obj.Labels
  · intro c created hlast hcan hcr hor
    cases hl : obj.HasLabel lgtmLabel with
    | false =>
      have hno : addLGTMIfCommented env comments events (getReviewers obj) =
          .returned [] := by
        apply haddN
        rintro ⟨c2, _, hc2, hm2, _, _⟩
        rw [hlast] at hc2
        simp only [Option.some.injEq] at hc2
        subst hc2
        rw [isMergeCommandComment_not_cancel env c hm2] at hcan
        exact Bool.false_ne_true hcan
      rw [hM, hl, if_neg Bool.false_ne_true, hno]
      simpa [Outcome.calls, applyCalls_nil, MungeObject.HasLabel] using hl
    | true =>
      have hov : ∀ t, manuallyAddMergableLabelTime events = some t →
          t.After created = false := by
        rcases hor with h | h
        · rw [hl] at h; exact absurd h.symm Bool.false_ne_true
        · exact h
      rw [hM, hl, if_pos rfl, hremY ⟨c, created, hlast, hcan, hcr, hov⟩]
      exact lgtm_not_mem_applyCalls_remove obj.Labels
  · intro hnone
    have h1 : addLGTMIfCommented env comments events (getReviewers obj) = .returned [] := by
      apply haddN
      rintro ⟨c2, _, hc2, _⟩
      rw [hnone] at hc2
      exact Option.noConfusion hc2
    have h2 : removeLGTMIfCancelled env comments events (getReviewers obj) =
        .returned [] := by
      apply hremN
      rintro ⟨c2, _, hc2, _⟩
      rw [hnone] at hc2
      exact Option.noConfusion hc2
    rw [hM, h1, h2]
    simp [Outcome.calls, applyCalls_nil]

/-- C3 amended, evaluated: on `demoUnlabeledPR` the reviewer's `/lgtm` is the
most recent authorized command and no manual removal exists, so `lgtm` is
present after the pass. -/
theorem Munge_most_recent_wins_witness :
    demoUnlabeledPR.IsPR = true ∧
      getCommentsAfterLastModified demoUnlabeledPR = .ok [demoComment demoReviewer "/lgtm" 5] ∧
      demoUnlabeledPR.GetEvents = .ok [] ∧
      (∀ c ∈ [demoComment demoReviewer "/lgtm" 5], c.Complete = true) ∧
      lgtmLabel ∈ labelsAfterMunge demoEnv demoUnlabeledPR :=
  ⟨by decide, by decide, by decide, by decide,
    (Munge_most_recent_wins demoEnv demoUnlabeledPR [demoComment demoReviewer "/lgtm" 5] []
        (by decide) (by decide) (by decide) (by decide)).1
      (demoComment demoReviewer "/lgtm" 5) 5 (by decide) (by decide) (by decide)
      (Or.inr (fun t ht => by
        have hn : manuallyRemoveMerableLabelTime [] = none := by decide
        rw [hn] at ht
        exact Option.noConfusion ht))⟩

/-! ## Unauthorized commenters (C4) -/

/-- C4: for every comment list, event list and reviewer set, the outcome of
`addLGTMIfCommented`, and of `removeLGTMIfCancelled`, on the full comment list
equals the outcome on the sub-list without the comments whose author fails
`IsValidUser` or `isApprovedToAlterLabels`; hence two comment lists with the
same authorized sub-list (one obtained from the other by inserting, deleting
or rewriting unauthorized comments) have the same outcome. -/
theorem unauthorized_commenters_inert (env : Env) (comments : List IssueComment)
    (events : List IssueEvent) (reviewers : UserSet) :
    addLGTMIfCommented env comments events reviewers =
        addLGTMIfCommented env
          (comments.filter fun c =>
            env.IsValidUser c.User && isApprovedToAlterLabels env c.User reviewers)
          events reviewers ∧
      removeLGTMIfCancelled env comments events reviewers =
        removeLGTMIfCancelled env
          (comments.filter fun c =>
            env.IsValidUser c.User && isApprovedToAlterLabels env c.User reviewers)
          events reviewers ∧
      ∀ other : List IssueComment,
        (other.filter fun c =>
            env.IsValidUser c.User && isApprovedToAlterLabels env c.User reviewers) =
          (comments.filter fun c =>
            env.IsValidUser c.User && isApprovedToAlterLabels env c.User reviewers) →
        addLGTMIfCommented env other events reviewers =
            addLGTMIfCommented env comments events reviewers ∧
          removeLGTMIfCancelled env other events reviewers =
            removeLGTMIfCancelled env comments events reviewers := by
  have hfun : (fun c : IssueComment =>
      env.IsValidUser c.User && isApprovedToAlterLabels env c.User reviewers) =
      isAuthorized env reviewers := rfl
  rw [hfun]
  refine ⟨(addLGTMIfCommented_filter env comments events reviewers).symm,
    (removeLGTMIfCancelled_filter env comments events reviewers).symm, ?_⟩
  intro other hsame
  constructor
  · rw [← addLGTMIfCommented_filter env other, hsame, addLGTMIfCommented_filter]
  · rw [← removeLGTMIfCancelled_filter env other, hsame, removeLGTMIfCancelled_filter]

/-- C4, evaluated: deleting the comment of `mallory`, who is no reviewer, from
`demoComments` changes neither outcome. -/
theorem unauthorized_commenters_inert_witness :
    addLGTMIfCommented demoEnv
          [demoComment demoReviewer "/lgtm cancel" 1,
            demoComment demoReviewer "  /LGTM // looks good" 5] demoEvents [demoReviewer] =
        addLGTMIfCommented demoEnv demoComments demoEvents [demoReviewer] ∧
      removeLGTMIfCancelled demoEnv
          [demoComment demoReviewer "/lgtm cancel" 1,
            demoComment demoReviewer "  /LGTM // looks good" 5] demoEvents [demoReviewer] =
        removeLGTMIfCancelled demoEnv demoComments demoEvents [demoReviewer] :=
  (unauthorized_commenters_inert demoEnv demoComments demoEvents [demoReviewer]).2.2
    [demoComment demoReviewer "/lgtm cancel" 1, demoComment demoReviewer "  /LGTM // looks good" 5]
    (by decide)

/-! ## Calls of one pass (C5, C6, C7) -/

theorem addFinish_cases (events : List IssueEvent) (c : IssueComment) :
    addFinish events c = .panicked ∨ addFinish events c = .returned [] ∨
      addFinish events c = .returned [.AddLabels [lgtmLabel, approveLabel]] := by
  unfold addFinish
  cases manuallyRemoveMerableLabelTime events with
  | none => cases c.User.bind User.Login <;> simp
  | some t =>
    cases c.CreatedAt with
    | none => simp
    | some created =>
      by_cases h : t.After created = true
      · simp [h]
      · cases c.User.bind User.Login <;> simp [h]

theorem removeFinish_cases (events : List IssueEvent) (c : IssueComment) :
    removeFinish events c = .panicked ∨ removeFinish events c = .returned [] ∨
      removeFinish events c = .returned [.RemoveLabel lgtmLabel] := by
  unfold removeFinish
  cases manuallyAddMergableLabelTime events with
  | none => cases c.User.bind User.Login <;> simp
  | some t =>
    cases c.CreatedAt with
    | none => simp
    | some created =>
      by_cases h : t.After created = true
      · simp [h]
      · cases c.User.bind User.Login <;> simp [h]

/-- A scan that makes `addLGTMIfCommented` add makes `removeLGTMIfCancelled`
return without a call. -/
theorem addOfVerdict_cases (events : List IssueEvent) (v : Verdict) :
    (addOfVerdict events v).calls = [] ∨
      ((addOfVerdict events v).calls = [.AddLabels [lgtmLabel, approveLabel]] ∧
        removeOfVerdict events v = .returned []) := by
  cases v with
  | exhausted => exact Or.inl rfl
  | crash => exact Or.inl rfl
  | cancel c => exact Or.inl rfl
  | merge c =>
    rcases addFinish_cases events c with h | h | h
    · left; simp [addOfVerdict, h, Outcome.calls]
    · left; simp [addOfVerdict, h, Outcome.calls]
    · right; simp [addOfVerdict, removeOfVerdict, h, Outcome.calls]

/-- A scan that makes `removeLGTMIfCancelled` remove makes `addLGTMIfCommented`
return without a call. -/
theorem removeOfVerdict_cases (events : List IssueEvent) (v : Verdict) :
    (removeOfVerdict events v).calls = [] ∨
      ((removeOfVerdict events v).calls = [.RemoveLabel lgtmLabel] ∧
        addOfVerdict events v = .returned []) := by
  cases v with
  | exhausted => exact Or.inl rfl
  | crash => exact Or.inl rfl
  | merge c => exact Or.inl rfl
  | cancel c =>
    rcases removeFinish_cases events c with h | h | h
    · left; simp [removeOfVerdict, h, Outcome.calls]
    · left; simp [removeOfVerdict, h, Outcome.calls]
    · right; simp [addOfVerdict, removeOfVerdict, h, Outcome.calls]

theorem addLGTMIfCommented_eq_verdict (env : Env) (comments : List IssueComment)
    (events : List IssueEvent) (reviewers : UserSet) :
    addLGTMIfCommented env comments events reviewers =
      addOfVerdict events (scan env reviewers comments.reverse) := by
  unfold addLGTMIfCommented
  exact addLGTMLoop_eq_scan env events reviewers comments.reverse

theorem removeLGTMIfCancelled_eq_verdict (env : Env) (comments : List IssueComment)
    (events : List IssueEvent) (reviewers : UserSet) :
    removeLGTMIfCancelled env comments events reviewers =
      removeOfVerdict events (scan env reviewers comments.reverse) := by
  unfold removeLGTMIfCancelled
  exact removeLGTMLoop_eq_scan env events reviewers comments.reverse

/-- A pass that does not reach the branch on the label issues no call. -/
theorem Munge_not_fetched (env : Env) (obj : MungeObject)
    (h : obj.IsPR = false ∨ (∀ comments, getCommentsAfterLastModified obj ≠ .ok comments) ∨
      (∀ events, obj.GetEvents ≠ .ok events)) :
    (Munge env obj).calls = [] := by
  unfold Munge
  by_cases hpr : obj.IsPR = true
  · simp only [hpr, Bool.not_true, Bool.false_eq_true, if_false]
    by_cases hrev : (getReviewers obj).length = 0
    · simp [hrev, Outcome.calls]
    · simp only [hrev, if_false]
      cases hcs : getCommentsAfterLastModified obj with
      | panicked => rfl
      | err msg => rfl
      | ok comments =>
        cases hev : obj.GetEvents with
        | panicked => rfl
        | err msg => rfl
        | ok events =>
          rcases h with h | h | h
          · rw [hpr] at h; exact absurd h (by decide)
          · exact absurd hcs (h comments)
          · exact absurd hev (h events)
  · simp [hpr, Outcome.calls]

/-- The calls of a pass: none, or the single `AddLabels([lgtm, approved])` on
an unlabeled request, or the single `RemoveLabel(lgtm)` on a labeled one. -/
theorem Munge_calls_cases (env : Env) (obj : MungeObject) :
    (Munge env obj).calls = [] ∨
      ((Munge env obj).calls = [.AddLabels [lgtmLabel, approveLabel]] ∧
        obj.HasLabel lgtmLabel = false) ∨
      ((Munge env obj).calls = [.RemoveLabel lgtmLabel] ∧ obj.HasLabel lgtmLabel = true) := by
  by_cases hpr : obj.IsPR = true
  · cases hcs : getCommentsAfterLastModified obj with
    | panicked => exact Or.inl (Munge_not_fetched env obj (Or.inr (Or.inl (by simp [hcs]))))
    | err msg => exact Or.inl (Munge_not_fetched env obj (Or.inr (Or.inl (by simp [hcs]))))
    | ok comments =>
      cases hev : obj.GetEvents with
      | panicked => exact Or.inl (Munge_not_fetched env obj (Or.inr (Or.inr (by simp [hev]))))
      | err msg => exact Or.inl (Munge_not_fetched env obj (Or.inr (Or.inr (by simp [hev]))))
      | ok events =>
        rw [Munge_fetched env obj comments events hpr hcs hev]
        cases hl : obj.HasLabel lgtmLabel with
        | false =>
          rw [if_neg Bool.false_ne_true, addLGTMIfCommented_eq_verdict]
          rcases addOfVerdict_cases events (scan env (getReviewers obj) comments.reverse)
            with h | ⟨h, _⟩
          · exact Or.inl h
          · exact Or.inr (Or.inl ⟨h, rfl⟩)
        | true =>
          rw [if_pos rfl, removeLGTMIfCancelled_eq_verdict]
          rcases removeOfVerdict_cases events (scan env (getReviewers obj) comments.reverse)
            with h | ⟨h, _⟩
          · exact Or.inl h
          · exact Or.inr (Or.inr ⟨h, rfl⟩)
  · exact Or.inl (Munge_not_fetched env obj (Or.inl (by simpa using hpr)))

theorem MungeObject.afterCalls_nil (obj : MungeObject) : obj.afterCalls [] = obj := by
  cases obj
  rfl

/-- C5: for every request, if `Munge` is run, the label calls it issued are
applied to the label set, and `Munge` is run again on the same comments,
events and reviewers, the second run issues no label call. -/
theorem Munge_idempotent (env : Env) (obj : MungeObject) :
    (Munge env (obj.afterCalls (Munge env obj).calls)).calls = [] := by
  by_cases hpr : obj.IsPR = true
  · cases hcs : getCommentsAfterLastModified obj with
    | panicked =>
      exact Munge_not_fetched env _ (Or.inr (Or.inl (fun cs => by
        show getCommentsAfterLastModified obj ≠ _
        simp [hcs])))
    | err msg =>
      exact Munge_not_fetched env _ (Or.inr (Or.inl (fun cs => by
        show getCommentsAfterLastModified obj ≠ _
        simp [hcs])))
    | ok comments =>
      cases hev : obj.GetEvents with
      | panicked =>
        exact Munge_not_fetched env _ (Or.inr (Or.inr (fun es => by
          show obj.GetEvents ≠ _
          simp [hev])))
      | err msg =>
        exact Munge_not_fetched env _ (Or.inr (Or.inr (fun es => by
          show obj.GetEvents ≠ _
          simp [hev])))
      | ok events =>
        have hM := Munge_fetched env obj comments events hpr hcs hev
        have hM2 : ∀ calls, Munge env (obj.afterCalls calls) =
            if (obj.afterCalls calls).HasLabel lgtmLabel then
              removeLGTMIfCancelled env comments events (getReviewers obj)
            else addLGTMIfCommented env comments events (getReviewers obj) :=
          fun calls => Munge_fetched env (obj.afterCalls calls) comments events hpr hcs hev
        rw [addLGTMIfCommented_eq_verdict, removeLGTMIfCancelled_eq_verdict] at hM
        cases hl : obj.HasLabel lgtmLabel with
        | false =>
          rw [hl, if_neg Bool.false_ne_true] at hM
          rcases addOfVerdict_cases events (scan env (getReviewers obj) comments.reverse)
            with h | ⟨h, hrem⟩
          · rw [← hM] at h
            rw [h, MungeObject.afterCalls_nil, h]
          · rw [← hM] at h
            have hlab : (obj.afterCalls (Munge env obj).calls).HasLabel lgtmLabel = true := by
              rw [h]
              simpa [MungeObject.HasLabel, MungeObject.afterCalls] using
                lgtm_mem_applyCalls_add obj.Labels
            rw [hM2, hlab, if_pos rfl, removeLGTMIfCancelled_eq_verdict, hrem]
            rfl
        | true =>
          rw [hl, if_pos rfl] at hM
          rcases removeOfVerdict_cases events (scan env (getReviewers obj) comments.reverse)
            with h | ⟨h, hadd⟩
          · rw [← hM] at h
            rw [h, MungeObject.afterCalls_nil, h]
          · rw [← hM] at h
            have hlab : (obj.afterCalls (Munge env obj).calls).HasLabel lgtmLabel = false := by
              rw [h]
              simpa [MungeObject.HasLabel, MungeObject.afterCalls] using
                lgtm_not_mem_applyCalls_remove obj.Labels
            rw [hM2, hlab, if_neg Bool.false_ne_true, addLGTMIfCommented_eq_verdict, hadd]
            rfl
  · exact Munge_not_fetched env _ (Or.inl (by
      show obj.IsPR = false
      simpa using hpr))

/-- C6: for every input, one call of `Munge` performs at most one label call;
`AddLabels` can occur only when the label `lgtm` was absent at the start of
the pass and `RemoveLabel` only when it was present. -/
theorem Munge_at_most_one_call (env : Env) (obj : MungeObject) :
    (Munge env obj).calls.length ≤ 1 ∧
      (∀ labels, LabelCall.AddLabels labels ∈ (Munge env obj).calls →
        obj.HasLabel lgtmLabel = false) ∧
      (∀ label, LabelCall.RemoveLabel label ∈ (Munge env obj).calls →
        obj.HasLabel lgtmLabel = true) := by
  rcases Munge_calls_cases env obj with h | ⟨h, hl⟩ | ⟨h, hl⟩
  · simp [h]
  · simp [h, hl]
  · simp [h, hl]

/-- C6, evaluated: the pass on `demoUnlabeledPR` issues `AddLabels`, and the
label was absent. -/
theorem Munge_at_most_one_call_witness :
    LabelCall.AddLabels ["lgtm", "approved"] ∈ (Munge demoEnv demoUnlabeledPR).calls ∧
      demoUnlabeledPR.HasLabel lgtmLabel = false :=
  ⟨by decide,
    (Munge_at_most_one_call demoEnv demoUnlabeledPR).2.1 ["lgtm", "approved"] (by decide)⟩

/-- C7: the calls of a pass are none, or the single call `AddLabels` with
exactly the two labels `lgtm` and `approved`, or the single call `RemoveLabel`
for `lgtm`; after a cancellation the label set is the former one without
`lgtm`, so `approved` and every label other than `lgtm` are as they were. -/
theorem Munge_mutation_shape (env : Env) (obj : MungeObject) :
    ((Munge env obj).calls = [] ∨
        (Munge env obj).calls = [.AddLabels ["lgtm", "approved"]] ∨
        (Munge env obj).calls = [.RemoveLabel "lgtm"]) ∧
      ((Munge env obj).calls = [.RemoveLabel "lgtm"] →
        labelsAfterMunge env obj = obj.Labels.filter (fun l => decide (l ≠ "lgtm")) ∧
          ("approved" ∈ labelsAfterMunge env obj ↔ "approved" ∈ obj.Labels) ∧
          ∀ l, l ≠ "lgtm" → (l ∈ labelsAfterMunge env obj ↔ l ∈ obj.Labels)) := by
  constructor
  · rcases Munge_calls_cases env obj with h | ⟨h, _⟩ | ⟨h, _⟩
    · exact Or.inl h
    · exact Or.inr (Or.inl h)
    · exact Or.inr (Or.inr h)
  · intro h
    have hfilter : labelsAfterMunge env obj =
        obj.Labels.filter (fun l => decide (l ≠ "lgtm")) := by
      unfold labelsAfterMunge
      rw [h]
      rfl
    refine ⟨hfilter, ?_, ?_⟩
    · rw [hfilter]
      simp [List.mem_filter]
    · intro l hne
      rw [hfilter]
      simp [List.mem_filter, hne]

/-- C7, evaluated: the pass on `demoLabeledPR` removes `lgtm` and leaves
`size/S` and `approved`. -/
theorem Munge_mutation_shape_witness :
    (Munge demoEnv demoLabeledPR).calls = [.RemoveLabel "lgtm"] ∧
      labelsAfterMunge demoEnv demoLabeledPR = ["size/S", "approved"] :=
  ⟨by decide,
    ((Munge_mutation_shape demoEnv demoLabeledPR).2 (by decide)).1.trans (by decide)⟩

/-! ## Classification of field sequences (C8, C9) -/

/-- C8: for every field sequence, `isMergeComment` returns true if and only if
the sequence has exactly one field and that field, lower-cased by
`strings.ToLower`, equals `/lgtm` or `/approve`; otherwise it returns false
(the index `fields[0]` is never out of range). -/
theorem isMergeComment_iff (env : Env) (fields : List String) :
    (isMergeComment env fields = some true ↔
        ∃ f, fields = [f] ∧
          (stringsToLower env.caseRanges f = "/lgtm" ∨
            stringsToLower env.caseRanges f = "/approve")) ∧
      (isMergeComment env fields = some true ∨ isMergeComment env fields = some false) := by
  rw [isMergeComment_eq]
  match fields with
  | [] => simp
  | [f] =>
    simp only [Option.some.injEq, List.cons.injEq, and_true, exists_eq_left']
    refine ⟨isMergeCommand_iff env f, ?_⟩
    cases isMergeCommand env f <;> simp
  | _ :: _ :: _ => simp

/-- C9: for every field sequence, `isCancelComment` returns true if and only
if the sequence has exactly two fields, the first, lower-cased by
`strings.ToLower`, equals `/lgtm` or `/approve`, and the second, lower-cased,
equals `cancel`; otherwise it returns false (no index is out of range). -/
theorem isCancelComment_iff (env : Env) (fields : List String) :
    (isCancelComment env fields = some true ↔
        ∃ f0 f1, fields = [f0, f1] ∧
          (stringsToLower env.caseRanges f0 = "/lgtm" ∨
            stringsToLower env.caseRanges f0 = "/approve") ∧
          stringsToLower env.caseRanges f1 = "cancel") ∧
      (isCancelComment env fields = some true ∨ isCancelComment env fields = some false) := by
  rw [isCancelComment_eq]
  match fields with
  | [] => simp
  | [f] => simp
  | [f0, f1] =>
    constructor
    · simp only [Option.some.injEq, Bool.and_eq_true, decide_eq_true_eq, isMergeCommand_iff,
        cancelCommandModifer]
      constructor
      · rintro ⟨h1, h0⟩
        exact ⟨f0, f1, rfl, h0, h1⟩
      · rintro ⟨g0, g1, heq, h0, h1⟩
        simp only [List.cons.injEq, and_true] at heq
        obtain ⟨rfl, rfl⟩ := heq
        exact ⟨h1, h0⟩
    · cases (decide (stringsToLower env.caseRanges f1 = cancelCommandModifer) &&
        isMergeCommand env f0) <;> simp
  | _ :: _ :: _ :: _ => simp

/-! ## `getFields` (C10) -/

theorem sep_infix_cons_cons (c d : Char) (rest : List Char) :
    ['/', '/'] <:+: c :: d :: rest ↔ (c = '/' ∧ d = '/') ∨ ['/', '/'] <:+: d :: rest := by
  rw [List.infix_cons_iff]
  constructor
  · rintro (h | h)
    · left
      rw [List.cons_prefix_cons, List.cons_prefix_cons] at h
      exact ⟨h.1.symm, h.2.1.symm⟩
    · exact Or.inr h
  · rintro (⟨rfl, rfl⟩ | h)
    · left
      rw [List.cons_prefix_cons, List.cons_prefix_cons]
      exact ⟨rfl, rfl, List.nil_prefix⟩
    · exact Or.inr h

theorem sep_not_infix_short (l : List Char) (h : l.length < 2) : ¬ ['/', '/'] <:+: l := by
  intro hin
  have := hin.length_le
  simp at this
  omega

/-- The piece before the first `"//"`. -/
theorem splitSlashes_append_sep (p s : List Char) (hno : ¬ ['/', '/'] <:+: p)
    (hend : p.getLast? ≠ some '/') :
    splitSlashes (p ++ '/' :: '/' :: s) = p :: splitSlashes s := by
  induction p with
  | nil => simp [splitSlashes]
  | cons c p' ih =>
    cases p' with
    | nil =>
      have hc : c ≠ '/' := by simpa using hend
      simp [splitSlashes, hc, consHead]
    | cons d p'' =>
      rw [sep_infix_cons_cons] at hno
      push_neg at hno
      have hend2 : (d :: p'').getLast? ≠ some '/' := by
        simpa [List.getLast?_cons_cons] using hend
      have ih2 := ih hno.2 hend2
      have hcd : ¬ (c = '/' ∧ d = '/') := fun h => hno.1 h.1 h.2
      show splitSlashes (c :: d :: (p'' ++ '/' :: '/' :: s)) = _
      rw [splitSlashes, if_neg hcd]
      rw [show d :: (p'' ++ '/' :: '/' :: s) = (d :: p'') ++ '/' :: '/' :: s from rfl, ih2]
      rfl

/-- Without `"//"` there is one piece, the whole text. -/
theorem splitSlashes_no_sep (p : List Char) (hno : ¬ ['/', '/'] <:+: p) :
    splitSlashes p = [p] := by
  induction p using splitSlashes.induct with
  | case1 => rfl
  | case2 c => rfl
  | case3 c d rest h ih =>
    exact absurd ((sep_infix_cons_cons c d rest).mpr (Or.inl h)) hno
  | case4 c d rest h ih =>
    rw [sep_infix_cons_cons] at hno
    push_neg at hno
    rw [splitSlashes, if_neg h, ih hno.2]
    rfl

/-- The first piece is a prefix of the text and contains no `"//"`. -/
theorem splitSlashes_head (l : List Char) :
    ∃ p ps, splitSlashes l = p :: ps ∧ p <+: l ∧ ¬ ['/', '/'] <:+: p := by
  induction l using splitSlashes.induct with
  | case1 => exact ⟨[], [], rfl, List.prefix_refl _, sep_not_infix_short _ (by simp)⟩
  | case2 c => exact ⟨[c], [], rfl, List.prefix_refl _, sep_not_infix_short _ (by simp)⟩
  | case3 c d rest h ih =>
    refine ⟨[], splitSlashes rest, ?_, List.nil_prefix, sep_not_infix_short _ (by simp)⟩
    rw [splitSlashes, if_pos h]
  | case4 c d rest h ih =>
    obtain ⟨p, ps, hsplit, hpre, hno⟩ := ih
    refine ⟨c :: p, ps, ?_, ?_, ?_⟩
    · rw [splitSlashes, if_neg h, hsplit]
      rfl
    · rw [List.cons_prefix_cons]
      exact ⟨rfl, hpre⟩
    · cases p with
      | nil => exact sep_not_infix_short _ (by simp)
      | cons e p' =>
        rw [sep_infix_cons_cons]
        push_neg
        refine ⟨fun hc he => h ⟨hc, ?_⟩, hno⟩
        rw [List.cons_prefix_cons] at hpre
        rw [← hpre.1]
        exact he

/-- Every field is a non-empty run without white space, cut out of the text. -/
theorem fieldsAux_spec (l : List Char) :
    ∀ cur : List Char, (∀ c ∈ cur, unicodeIsSpace c = false) →
      ∀ f ∈ fieldsAux l cur,
        f ≠ [] ∧ (∀ c ∈ f, unicodeIsSpace c = false) ∧ f <:+: cur.reverse ++ l := by
  induction l with
  | nil =>
    intro cur hcur f hf
    unfold fieldsAux at hf
    by_cases hnil : cur = []
    · simp [hnil] at hf
    · simp only [hnil, if_false, List.mem_singleton] at hf
      subst hf
      refine ⟨by simpa using hnil, fun c hc => hcur c (List.mem_reverse.mp hc), ?_⟩
      simp
  | cons c rest ih =>
    intro cur hcur f hf
    unfold fieldsAux at hf
    by_cases hsp : unicodeIsSpace c = true
    · simp only [hsp, if_true] at hf
      have hrest : ∀ g ∈ fieldsAux rest [],
          g ≠ [] ∧ (∀ c ∈ g, unicodeIsSpace c = false) ∧
            g <:+: cur.reverse ++ c :: rest := by
        intro g hg
        obtain ⟨h1, h2, h3⟩ := ih [] (by simp) g hg
        refine ⟨h1, h2, ?_⟩
        simp only [List.reverse_nil, List.nil_append] at h3
        exact h3.trans ((List.suffix_cons c rest).isInfix.trans
          (List.suffix_append _ _).isInfix)
      by_cases hnil : cur = []
      · simp only [hnil, if_true] at hf
        have := hrest f hf
        simpa [hnil] using this
      · simp only [hnil, if_false, List.mem_cons] at hf
        rcases hf with rfl | hf
        · refine ⟨by simpa using hnil, fun c hc => hcur c (List.mem_reverse.mp hc), ?_⟩
          exact (List.prefix_append _ _).isInfix
        · exact hrest f hf
    · simp only [hsp, Bool.false_eq_true, if_false] at hf
      have hcur2 : ∀ x ∈ c :: cur, unicodeIsSpace x = false := by
        intro x hx
        rcases List.mem_cons.mp hx with rfl | hx
        · simpa using hsp
        · exact hcur x hx
      obtain ⟨h1, h2, h3⟩ := ih (c :: cur) hcur2 f hf
      refine ⟨h1, h2, ?_⟩
      simpa using h3

/-- C10 as stated fails: `"/"` contains no `"//"`, yet in `"/" ++ "//" ++ "x"`
the first `"//"` starts at the first rune, so `getFields` returns no field,
while `getFields("/")` returns the field `/`. -/
theorem getFields_equation_counterexample :
    ¬ containsSlashes "/" ∧
      getFields ("/" ++ "//" ++ "x") = some [] ∧
      getFields "/" = some ["/"] ∧
      getFields ("/" ++ "//" ++ "x") ≠ getFields "/" := by
  decide

/-- C10, amended: for every string `b` containing no `"//"` and not ending in
`"/"`, and every string `s`, `getFields(b ++ "//" ++ s) = getFields(b)`; for
every `b` containing no `"//"`, `getFields(b) = strings.Fields(b)`; and for
every body `getFields` returns, and no returned field is empty, contains white
space or contains `"//"`. -/
theorem getFields_spec (b s : String) :
    (¬ containsSlashes b → b.data.getLast? ≠ some '/' →
        getFields (b ++ "//" ++ s) = getFields b) ∧
      (¬ containsSlashes b → getFields b = some (stringsFields b)) ∧
      ∃ fields, getFields b = some fields ∧
        ∀ f ∈ fields,
          f ≠ "" ∧ (∀ c ∈ f.data, unicodeIsSpace c = false) ∧ ¬ containsSlashes f := by
  refine ⟨?_, ?_, ?_⟩
  · intro hno hend
    rw [getFields_eq, getFields_eq]
    have h1 : (b ++ "//" ++ s).data = b.data ++ '/' :: '/' :: s.data := by
      simp [String.data_append]
    rw [h1, splitSlashes_append_sep b.data s.data hno hend, splitSlashes_no_sep b.data hno]
    rfl
  · intro hno
    rw [getFields_eq, splitSlashes_no_sep b.data hno]
    rfl
  · refine ⟨_, getFields_eq b, ?_⟩
    obtain ⟨p, ps, hsplit, _, hnosep⟩ := splitSlashes_head b.data
    rw [hsplit]
    intro f hf
    simp only [List.headD_cons, stringsFields, List.mem_map] at hf
    obtain ⟨g, hg, rfl⟩ := hf
    obtain ⟨h1, h2, h3⟩ := fieldsAux_spec p [] (by simp) g hg
    simp only [List.reverse_nil, List.nil_append] at h3
    refine ⟨?_, h2, fun hin => hnosep (List.IsInfix.trans hin h3)⟩
    intro hempty
    apply h1
    have := congrArg String.data hempty
    simpa using this

/-- C10 amended, evaluated: the annotation after `"//"` does not change the
fields of a cancel-command. -/
theorem getFields_spec_witness :
    getFields ("/lgtm cancel " ++ "//" ++ " /lgtm") = getFields "/lgtm cancel " ∧
      getFields "/lgtm cancel " = some ["/lgtm", "cancel"] :=
  ⟨(getFields_spec "/lgtm cancel " " /lgtm").1 (by decide) (by decide),
    ((getFields_spec "/lgtm cancel " " /lgtm").2.1 (by decide)).trans (by decide)⟩

/-! ## Authorization (C11) -/

/-- C11: `isApprovedToAlterLabels(user, reviewers)` returns true if and only
if `IsMungeBot(user)` holds and the user is a member of `reviewers` (the user
has a login and the login is in the set); the result is the same for two
comments of the same author, whatever their bodies and times. -/
theorem isApprovedToAlterLabels_iff (env : Env) (user : Option User) (reviewers : UserSet) :
    (isApprovedToAlterLabels env user reviewers = true ↔
        env.IsMungeBot user = true ∧ reviewers.Has user = true) ∧
      (reviewers.Has user = true ↔
        ∃ login, user = some { Login := some login } ∧ login ∈ reviewers) ∧
      ∀ c d : IssueComment, c.User = user → d.User = user →
        isApprovedToAlterLabels env c.User reviewers =
          isApprovedToAlterLabels env d.User reviewers := by
  refine ⟨?_, ?_, ?_⟩
  · simp [isApprovedToAlterLabels]
  · unfold UserSet.Has
    match user with
    | none => simp
    | some ⟨none⟩ => simp
    | some ⟨some login⟩ => simp
  · intro c d hc hd
    rw [hc, hd]

/-- C11, evaluated: two comments of the reviewer with different bodies and
times get the same, positive, answer. -/
theorem isApprovedToAlterLabels_iff_witness :
    isApprovedToAlterLabels demoEnv (demoComment demoReviewer "/lgtm" 1).User [demoReviewer] =
        isApprovedToAlterLabels demoEnv (demoComment demoReviewer "no command" 7).User
          [demoReviewer] ∧
      isApprovedToAlterLabels demoEnv (some { Login := some demoReviewer }) [demoReviewer] =
        true :=
  ⟨(isApprovedToAlterLabels_iff demoEnv (some { Login := some demoReviewer })
      [demoReviewer]).2.2 _ _ rfl rfl,
    by decide⟩

/-! ## Event timeline (C12) -/

theorem eLastEvent_none_iff (m : Matcher) (events : List IssueEvent) :
    eLastEvent events m none = none ↔ ∀ ev ∈ events, m ev = false := by
  unfold eLastEvent
  suffices h : ∀ init : Option Time,
      events.foldl
          (fun best ev =>
            if m ev then
              match best with
              | none => some ev.CreatedAt
              | some t => if ev.CreatedAt.After t then some ev.CreatedAt else some t
            else best)
          init = none ↔ init = none ∧ ∀ ev ∈ events, m ev = false by
    have h0 := h none
    simp only [true_and] at h0
    rw [← h0]
    cases events.foldl _ none <;> simp
  induction events with
  | nil => intro init; simp
  | cons ev rest ih =>
    intro init
    rw [List.foldl_cons, ih]
    by_cases hm : m ev = true
    · cases init with
      | none => simp [hm]
      | some t0 => by_cases ha : ev.CreatedAt.After t0 = true <;> simp [hm, ha]
    · simp [hm]

theorem eLastEvent_some (m : Matcher) (events : List IssueEvent) (t : Time)
    (h : eLastEvent events m none = some t) :
    (∃ ev ∈ events, m ev = true ∧ ev.CreatedAt = t) ∧
      ∀ ev ∈ events, m ev = true → ev.CreatedAt ≤ t := by
  unfold eLastEvent at h
  suffices hgen : ∀ (init : Option Time) (t : Time),
      events.foldl
          (fun best ev =>
            if m ev then
              match best with
              | none => some ev.CreatedAt
              | some t => if ev.CreatedAt.After t then some ev.CreatedAt else some t
            else best)
          init = some t →
        (init = some t ∨ ∃ ev ∈ events, m ev = true ∧ ev.CreatedAt = t) ∧
          (∀ t0, init = some t0 → t0 ≤ t) ∧
          ∀ ev ∈ events, m ev = true → ev.CreatedAt ≤ t by
    have hfold : events.foldl
          (fun best ev =>
            if m ev then
              match best with
              | none => some ev.CreatedAt
              | some t => if ev.CreatedAt.After t then some ev.CreatedAt else some t
            else best)
          none = some t := by
      revert h
      cases events.foldl _ none <;> simp
    obtain ⟨h1, _, h3⟩ := hgen none t hfold
    refine ⟨?_, h3⟩
    rcases h1 with h1 | h1
    · exact Option.noConfusion h1
    · exact h1
  clear h
  induction events with
  | nil =>
    intro init t h
    simp only [List.foldl_nil] at h
    subst h
    simp
  | cons ev rest ih =>
    intro init t h
    rw [List.foldl_cons] at h
    obtain ⟨h1, h2, h3⟩ := ih _ t h
    by_cases hm : m ev = true
    · simp only [hm, if_true] at h1 h2
      cases init with
      | none =>
        simp only [Option.some.injEq] at h1 h2
        have hle : ev.CreatedAt ≤ t := h2 _ rfl
        refine ⟨Or.inr ?_, by simp, ?_⟩
        · rcases h1 with h1 | ⟨e, he, hme, het⟩
          · exact ⟨ev, List.mem_cons_self _ _, hm, h1⟩
          · exact ⟨e, List.mem_cons_of_mem _ he, hme, het⟩
        · intro e he hme
          rcases List.mem_cons.mp he with rfl | he
          · exact hle
          · exact h3 e he hme
      | some t0 =>
        by_cases ha : ev.CreatedAt.After t0 = true
        · simp only [ha, if_true, Option.some.injEq] at h1 h2
          have hle : ev.CreatedAt ≤ t := h2 _ rfl
          have hlt : t0 < ev.CreatedAt := by simpa [Time.After] using ha
          refine ⟨Or.inr ?_, ?_, ?_⟩
          · rcases h1 with h1 | ⟨e, he, hme, het⟩
            · exact ⟨ev, List.mem_cons_self _ _, hm, h1⟩
            · exact ⟨e, List.mem_cons_of_mem _ he, hme, het⟩
          · intro t1 ht1
            simp only [Option.some.injEq] at ht1
            subst ht1
            exact le_trans (le_of_lt hlt) hle
          · intro e he hme
            rcases List.mem_cons.mp he with rfl | he
            · exact hle
            · exact h3 e he hme
        · simp only [ha, Bool.false_eq_true, if_false, Option.some.injEq] at h1 h2
          have hle : t0 ≤ t := h2 _ rfl
          have hnlt : ev.CreatedAt ≤ t0 := by
            have : ¬ t0 < ev.CreatedAt := by simpa [Time.After] using ha
            exact not_lt.mp this
          refine ⟨?_, ?_, ?_⟩
          · rcases h1 with h1 | ⟨e, he, hme, het⟩
            · exact Or.inl (by rw [h1])
            · exact Or.inr ⟨e, List.mem_cons_of_mem _ he, hme, het⟩
          · intro t1 ht1
            simp only [Option.some.injEq] at ht1
            subst ht1
            exact hle
          · intro e he hme
            rcases List.mem_cons.mp he with rfl | he
            · exact le_trans hnlt hle
            · exact h3 e he hme
    · simp only [hm, Bool.false_eq_true, if_false] at h1 h2
      refine ⟨?_, h2, ?_⟩
      · rcases h1 with h1 | ⟨e, he, hme, het⟩
        · exact Or.inl h1
        · exact Or.inr ⟨e, List.mem_cons_of_mem _ he, hme, het⟩
      · intro e he hme
        rcases List.mem_cons.mp he with rfl | he
        · exact absurd hme hm
        · exact h3 e he hme

theorem eLastEvent_filter (m : Matcher) (events : List IssueEvent) :
    eLastEvent (events.filter m) m none = eLastEvent events m none := by
  unfold eLastEvent
  suffices h : ∀ init : Option Time,
      (events.filter m).foldl
          (fun best ev =>
            if m ev then
              match best with
              | none => some ev.CreatedAt
              | some t => if ev.CreatedAt.After t then some ev.CreatedAt else some t
            else best)
          init =
        events.foldl
          (fun best ev =>
            if m ev then
              match best with
              | none => some ev.CreatedAt
              | some t => if ev.CreatedAt.After t then some ev.CreatedAt else some t
            else best)
          init by
    rw [h none]
  induction events with
  | nil => intro init; rfl
  | cons ev rest ih =>
    intro init
    by_cases hm : m ev = true
    · simp only [List.filter_cons, hm, if_true, List.foldl_cons]
      exact ih _
    · simp only [List.filter_cons, hm, Bool.false_eq_true, if_false, List.foldl_cons]
      exact ih _

theorem manualRemoval_matcher :
    eAnd [eRemoveLabel, eOr [eLabelName lgtmLabel, eLabelName approveLabel], eHumanActor] =
      isManualRemoval := by
  funext ev
  simp [eAnd, eOr, eRemoveLabel, eLabelName, eHumanActor, isManualRemoval, lgtmLabel,
    approveLabel, Bool.and_assoc]

theorem manualAddition_matcher :
    eAnd [eAddLabel, eOr [eLabelName lgtmLabel, eLabelName approveLabel], eHumanActor] =
      isManualAddition := by
  funext ev
  simp [eAnd, eOr, eAddLabel, eLabelName, eHumanActor, isManualAddition, lgtmLabel,
    approveLabel, Bool.and_assoc]

theorem manuallyRemoveMerableLabelTime_eq (events : List IssueEvent) :
    manuallyRemoveMerableLabelTime events = eLastEvent events isManualRemoval none := by
  unfold manuallyRemoveMerableLabelTime
  simp only [manualRemoval_matcher]

theorem manuallyAddMergableLabelTime_eq (events : List IssueEvent) :
    manuallyAddMergableLabelTime events = eLastEvent events isManualAddition none := by
  unfold manuallyAddMergableLabelTime
  simp only [manualAddition_matcher]

/-- C12: `manuallyRemoveMerableLabelTime` returns an absent value if and only
if no event is a removal of `lgtm` or `approved` by a human actor, and
otherwise the timestamp of such an event that is the latest among them; the
result is the one on the matching events alone, so no other event affects it.
`manuallyAddMergableLabelTime` does the same for the additions. -/
theorem manualLabelTime_spec (events : List IssueEvent) :
    ((manuallyRemoveMerableLabelTime events = none ↔
          ∀ ev ∈ events, isManualRemoval ev = false) ∧
        (∀ t, manuallyRemoveMerableLabelTime events = some t →
          (∃ ev ∈ events, isManualRemoval ev = true ∧ ev.CreatedAt = t) ∧
            ∀ ev ∈ events, isManualRemoval ev = true → ev.CreatedAt ≤ t) ∧
        manuallyRemoveMerableLabelTime (events.filter isManualRemoval) =
          manuallyRemoveMerableLabelTime events) ∧
      ((manuallyAddMergableLabelTime events = none ↔
          ∀ ev ∈ events, isManualAddition ev = false) ∧
        (∀ t, manuallyAddMergableLabelTime events = some t →
          (∃ ev ∈ events, isManualAddition ev = true ∧ ev.CreatedAt = t) ∧
            ∀ ev ∈ events, isManualAddition ev = true → ev.CreatedAt ≤ t) ∧
        manuallyAddMergableLabelTime (events.filter isManualAddition) =
          manuallyAddMergableLabelTime events) := by
  simp only [manuallyRemoveMerableLabelTime_eq, manuallyAddMergableLabelTime_eq]
  exact ⟨⟨eLastEvent_none_iff _ _, fun t h => eLastEvent_some _ _ t h, eLastEvent_filter _ _⟩,
    ⟨eLastEvent_none_iff _ _, fun t h => eLastEvent_some _ _ t h, eLastEvent_filter _ _⟩⟩

/-- C12, evaluated: on `demoTimeline` the manual removals are at 3 and 8, so
the removal time is 8 and every manual removal is at or before it; the only
manual addition is at 12. -/
theorem manualLabelTime_spec_witness :
    manuallyRemoveMerableLabelTime demoTimeline = some 8 ∧
      manuallyAddMergableLabelTime demoTimeline = some 12 ∧
      ∀ ev ∈ demoTimeline, isManualRemoval ev = true → ev.CreatedAt ≤ 8 :=
  ⟨by decide, by decide,
    ((manualLabelTime_spec demoTimeline).1.2.1 8 (by decide)).2⟩

/-! ## Fetch failures and skipped objects (C13, C17) -/

/-- The label calls among the calls on the object are the calls of `Munge`. -/
theorem MungeEffects_labelCalls (env : Env) (obj : MungeObject) :
    (MungeEffects env obj).filterMap Effect.labelCall? = (Munge env obj).calls := by
  have hmap : ∀ calls : List LabelCall,
      (calls.map Effect.Label).filterMap Effect.labelCall? = calls := by
    intro calls
    induction calls with
    | nil => rfl
    | cons c cs ih => simp [List.filterMap_cons, Effect.labelCall?, ih]
  unfold MungeEffects Munge
  by_cases hpr : obj.IsPR = true
  · simp only [hpr, Bool.not_true, Bool.false_eq_true, if_false]
    by_cases hrev : (getReviewers obj).length = 0
    · simp [hrev, Outcome.calls]
    · simp only [hrev, if_false]
      cases hcs : getCommentsAfterLastModified obj with
      | panicked => simp [Effect.labelCall?, Outcome.calls]
      | err msg => simp [Effect.labelCall?, Outcome.calls]
      | ok comments =>
        cases hev : obj.GetEvents with
        | panicked => simp [Effect.labelCall?, Outcome.calls]
        | err msg => simp [Effect.labelCall?, Outcome.calls]
        | ok events =>
          cases hl : obj.HasLabel lgtmLabel <;>
            simp [List.filterMap_cons, Effect.labelCall?, hmap]
  · simp [hpr, Outcome.calls]

theorem label_not_mem_of_calls_nil (env : Env) (obj : MungeObject)
    (h : (Munge env obj).calls = []) (call : LabelCall) :
    Effect.Label call ∉ MungeEffects env obj := by
  intro hmem
  have : call ∈ (MungeEffects env obj).filterMap Effect.labelCall? :=
    List.mem_filterMap.mpr ⟨_, hmem, rfl⟩
  rw [MungeEffects_labelCalls, h] at this
  exact List.not_mem_nil _ this

/-- C13: if fetching the comments fails, `Munge` returns without a label call
and without fetching the events; if fetching the events fails, `Munge` issues
no label call, and returns when the comments were fetched; both whatever the
labels, comments and events of the request are. -/
theorem Munge_fetch_failure (env : Env) (obj : MungeObject) :
    (∀ msg, getCommentsAfterLastModified obj = .err msg →
        Munge env obj = .returned [] ∧ Effect.GetEvents ∉ MungeEffects env obj ∧
          ∀ call, Effect.Label call ∉ MungeEffects env obj) ∧
      (∀ msg, obj.GetEvents = .err msg →
        (Munge env obj).calls = [] ∧
          (∀ call, Effect.Label call ∉ MungeEffects env obj) ∧
          ∀ comments, getCommentsAfterLastModified obj = .ok comments →
            Munge env obj = .returned []) := by
  constructor
  · intro msg hcs
    have hret : Munge env obj = .returned [] := by
      unfold Munge
      by_cases hpr : obj.IsPR = true
      · by_cases hrev : (getReviewers obj).length = 0
        · simp [hpr, hrev]
        · simp [hpr, hrev, hcs]
      · simp [hpr]
    refine ⟨hret, ?_, label_not_mem_of_calls_nil env obj (by rw [hret]; rfl)⟩
    unfold MungeEffects
    by_cases hpr : obj.IsPR = true
    · by_cases hrev : (getReviewers obj).length = 0
      · simp [hpr, hrev]
      · simp [hpr, hrev, hcs]
    · simp [hpr]
  · intro msg hev
    have hcalls : (Munge env obj).calls = [] :=
      Munge_not_fetched env obj (Or.inr (Or.inr (fun events => by simp [hev])))
    refine ⟨hcalls, label_not_mem_of_calls_nil env obj hcalls, ?_⟩
    intro comments hcs
    unfold Munge
    by_cases hpr : obj.IsPR = true
    · by_cases hrev : (getReviewers obj).length = 0
      · simp [hpr, hrev]
      · simp [hpr, hrev, hcs, hev]
    · simp [hpr]

/-- C13, evaluated: with a failing comment fetch the only call on the object
is `ListComments`; with a failing event fetch both fetches are made and no
label call follows, although the reviewer's `/lgtm` would add the labels. -/
theorem Munge_fetch_failure_witness :
    Munge demoEnv demoUnlabeledPR = .returned [.AddLabels ["lgtm", "approved"]] ∧
      MungeEffects demoEnv demoCommentsFailPR = [.ListComments] ∧
      MungeEffects demoEnv demoEventsFailPR = [.ListComments, .GetEvents] ∧
      Munge demoEnv demoCommentsFailPR = .returned [] ∧
      (Munge demoEnv demoEventsFailPR).calls = [] :=
  ⟨by decide, by decide, by decide,
    ((Munge_fetch_failure demoEnv demoCommentsFailPR).1 "comments: 502" (by decide)).1,
    ((Munge_fetch_failure demoEnv demoEventsFailPR).2 "events: 502" (by decide)).1⟩

/-- C17: if the object is not a pull request, or the reviewer set derived from
`Assignees` plus `Assignee` is empty, `Munge` returns without a label call and
makes no call on the object that fetches comments or events. -/
theorem Munge_skips (env : Env) (obj : MungeObject)
    (h : obj.IsPR = false ∨ (getReviewers obj).length = 0) :
    Munge env obj = .returned [] ∧ MungeEffects env obj = [] ∧
      getReviewers obj = GetUsers (obj.Assignees ++ [obj.Assignee]) := by
  refine ⟨?_, ?_, rfl⟩
  · unfold Munge
    rcases h with h | h
    · simp [h]
    · by_cases hpr : obj.IsPR = true <;> simp [hpr, h]
  · unfold MungeEffects
    rcases h with h | h
    · simp [h]
    · by_cases hpr : obj.IsPR = true <;> simp [hpr, h]

/-- C17, evaluated: `demoIssue` carries the reviewer's `/lgtm` but is no pull
request. -/
theorem Munge_skips_witness :
    demoIssue.IsPR = false ∧ Munge demoEnv demoIssue = .returned [] ∧
      MungeEffects demoEnv demoIssue = [] :=
  ⟨by decide, (Munge_skips demoEnv demoIssue (Or.inl (by decide))).1,
    (Munge_skips demoEnv demoIssue (Or.inl (by decide))).2.1⟩

/-! ## Stale comments (C14) -/

theorem filter_since_of_not_createdBefore (lm : Time) (l : List IssueComment) :
    (l.filter fun c => !createdBefore lm c).filter
        (fun c =>
          match c.CreatedAt with
          | some t => decide (lm ≤ t)
          | none => false) =
      l.filter fun c =>
        match c.CreatedAt with
        | some t => decide (lm ≤ t)
        | none => false := by
  rw [List.filter_filter]
  congr 1
  funext c
  unfold createdBefore
  cases c.CreatedAt with
  | none => simp
  | some t =>
    by_cases h : lm ≤ t
    · simp [h, not_lt.mpr h]
    · simp [h]

/-- C14: a comment created before the request's last-modified time never
influences the outcome: two comment histories that differ only in comments
whose creation time is before `LastModifiedTime` lead `Munge` to the same
outcome, hence to the same label mutation. -/
theorem Munge_stale_comments_ignored (env : Env) (obj : MungeObject) (lm : Time)
    (other : List IssueComment) (hlm : obj.LastModifiedTime = some lm)
    (hsame : (other.filter fun c => !createdBefore lm c) =
      obj.Comments.filter fun c => !createdBefore lm c) :
    Munge env (obj.withComments other) = Munge env obj := by
  have hfetch : getCommentsAfterLastModified (obj.withComments other) =
      getCommentsAfterLastModified obj := by
    unfold getCommentsAfterLastModified MungeObject.ListComments
    show (match obj.LastModifiedTime with
      | none => Fetch.panicked
      | some lastModified =>
        match obj.commentsErr with
        | some msg => Fetch.err msg
        | none => Fetch.ok (other.filter _)) = _
    rw [hlm]
    cases obj.commentsErr with
    | some msg => rfl
    | none =>
      simp only
      rw [← filter_since_of_not_createdBefore lm other,
        ← filter_since_of_not_createdBefore lm obj.Comments, hsame]
  have hrev : getReviewers (obj.withComments other) = getReviewers obj := rfl
  have hpr : (obj.withComments other).IsPR = obj.IsPR := rfl
  have hev : (obj.withComments other).GetEvents = obj.GetEvents := rfl
  have hl : (obj.withComments other).HasLabel lgtmLabel = obj.HasLabel lgtmLabel := rfl
  unfold Munge
  rw [hfetch, hrev, hpr, hev, hl]

/-- C14, evaluated: a `/lgtm` of the reviewer created at 3, before the
last-modified time 5 of `demoModifiedPR`, leaves the pass without a call, as
on the history without it. -/
theorem Munge_stale_comments_ignored_witness :
    Munge demoEnv (demoModifiedPR.withComments [demoComment demoReviewer "/lgtm" 3]) =
        Munge demoEnv demoModifiedPR ∧
      Munge demoEnv demoModifiedPR = .returned [] :=
  ⟨Munge_stale_comments_ignored demoEnv demoModifiedPR 5
      [demoComment demoReviewer "/lgtm" 3] (by decide) (by decide),
    by decide⟩

/-! ## Totality of parsing and classification (C15, C19) -/

theorem unicodeIsSpace_ne_slash (c : Char) (h : unicodeIsSpace c = true) : c ≠ '/' := by
  rintro rfl
  exact absurd h (by decide)

theorem sep_not_infix_of_spaces (l : List Char) (h : ∀ c ∈ l, unicodeIsSpace c = true) :
    ¬ ['/', '/'] <:+: l := by
  intro hin
  have hmem : '/' ∈ l := hin.subset (by simp)
  exact unicodeIsSpace_ne_slash '/' (h '/' hmem) rfl

theorem fieldsAux_spaces (l : List Char) (h : ∀ c ∈ l, unicodeIsSpace c = true) :
    fieldsAux l [] = [] := by
  induction l with
  | nil => rfl
  | cons c rest ih =>
    have hc := h c (List.mem_cons_self _ _)
    unfold fieldsAux
    simp only [hc, if_true]
    exact ih (fun d hd => h d (List.mem_cons_of_mem _ hd))

/-- C15: for every body `strings.Split(body, "//")` has at least one element
and `getFields` returns; for every field sequence `isMergeComment` and
`isCancelComment` return without an index out of range; a body that yields no
fields is neither a merge-command nor a cancel-command, and the empty body,
a body of white space only and a body starting with `"//"` yield no fields. -/
theorem parsing_never_fails (env : Env) (body : String) (fields : List String) :
    stringsSplit body ≠ [] ∧
      (∃ fs, getFields body = some fs) ∧
      (∃ b, isMergeComment env fields = some b) ∧
      (∃ b, isCancelComment env fields = some b) ∧
      (getFields body = some [] →
        isMergeBody env body = false ∧ isCancelBody env body = false) ∧
      (body = "" → getFields body = some []) ∧
      ((∀ c ∈ body.data, unicodeIsSpace c = true) → getFields body = some []) ∧
      (['/', '/'] <+: body.data → getFields body = some []) := by
  refine ⟨?_, ⟨_, getFields_eq body⟩, ⟨_, isMergeComment_eq env fields⟩,
    ⟨_, isCancelComment_eq env fields⟩, ?_, ?_, ?_, ?_⟩
  · unfold stringsSplit
    simpa using splitSlashes_ne_nil body.data
  · intro h
    unfold isMergeBody isCancelBody
    rw [h]
    simp only [Option.some_bind]
    rw [isMergeComment_eq, isCancelComment_eq]
    exact ⟨rfl, rfl⟩
  · rintro rfl
    decide
  · intro h
    rw [getFields_eq, splitSlashes_no_sep body.data (sep_not_infix_of_spaces _ h)]
    simp only [List.headD_cons, stringsFields, fieldsAux_spaces body.data h, List.map_nil]
  · rintro ⟨rest, hrest⟩
    rw [getFields_eq, ← hrest]
    simp only [List.cons_append, List.nil_append, splitSlashes, and_self, if_true,
      List.headD_cons]
    rfl

/-- C15, evaluated: a body of white space only and a body starting with `"//"`
yield no fields and are neither command. -/
theorem parsing_never_fails_witness :
    getFields " \t\n" = some [] ∧ getFields "// /lgtm" = some [] ∧
      isMergeBody demoEnv "// /lgtm" = false ∧ isCancelBody demoEnv "// /lgtm" = false :=
  ⟨(parsing_never_fails demoEnv " \t\n" []).2.2.2.2.2.2.1 (by decide),
    (parsing_never_fails demoEnv "// /lgtm" []).2.2.2.2.2.2.2 (by decide),
    ((parsing_never_fails demoEnv "// /lgtm" []).2.2.2.2.1 (by decide)).1,
    ((parsing_never_fails demoEnv "// /lgtm" []).2.2.2.2.1 (by decide)).2⟩

/-- C19: for every field sequence `isMergeComment` and `isCancelComment` are
never both true, so exactly one of merge-command, cancel-command and neither
holds; testing cancel first, as `addLGTMIfCommented` does, or merge first, as
`removeLGTMIfCancelled` does, gives the same class, and both loops follow the
same scan of the comments. -/
theorem classification_well_defined (env : Env) (fields : List String)
    (events : List IssueEvent) (reviewers : UserSet) (l : List IssueComment) :
    ¬ (isMergeComment env fields = some true ∧ isCancelComment env fields = some true) ∧
      ((isMergeComment env fields = some true ∧ isCancelComment env fields = some false) ∨
        (isMergeComment env fields = some false ∧ isCancelComment env fields = some true) ∨
        (isMergeComment env fields = some false ∧
          isCancelComment env fields = some false)) ∧
      classifyCancelFirst env fields = classifyMergeFirst env fields ∧
      (∃ cls, classifyMergeFirst env fields = some cls) ∧
      addLGTMLoop env events reviewers l = addOfVerdict events (scan env reviewers l) ∧
      removeLGTMLoop env events reviewers l =
        removeOfVerdict events (scan env reviewers l) := by
  obtain ⟨bm, hm⟩ : ∃ b, isMergeComment env fields = some b :=
    ⟨_, isMergeComment_eq env fields⟩
  obtain ⟨bc, hc⟩ : ∃ b, isCancelComment env fields = some b :=
    ⟨_, isCancelComment_eq env fields⟩
  have hex : ¬ (bm = true ∧ bc = true) := by
    rintro ⟨rfl, rfl⟩
    rw [merge_cancel_exclusive env fields hm] at hc
    simp at hc
  refine ⟨?_, ?_, ?_, ?_, addLGTMLoop_eq_scan env events reviewers l,
    removeLGTMLoop_eq_scan env events reviewers l⟩
  · rw [hm, hc]
    simpa using hex
  · rw [hm, hc]
    cases bm <;> cases bc <;> simp at hex ⊢
  · unfold classifyCancelFirst classifyMergeFirst
    simp only [hm, hc]
    cases bm <;> cases bc <;> simp at hex ⊢
  · unfold classifyMergeFirst
    simp only [hm, hc]
    cases bm <;> cases bc <;> simp

/-! ## Runtime failures (C16) -/

/-- C16 as stated fails: an absent body of a reviewer's comment is
dereferenced by both loops, an absent creation time is dereferenced when a
manual removal exists, and an absent last-modified time is dereferenced when
the comments are fetched. -/
theorem no_fatal_conditions_counterexample :
    addLGTMIfCommented demoEnv [demoNoBodyComment] [] [demoReviewer] = .panicked ∧
      removeLGTMIfCancelled demoEnv [demoNoBodyComment] [] [demoReviewer] = .panicked ∧
      addLGTMIfCommented demoEnv [demoNoTimeComment]
          [demoEvent .LabelRemoved "lgtm" 7 true] [demoReviewer] = .panicked ∧
      Munge demoEnv demoNoLastModifiedPR = .panicked := by
  decide

theorem scan_stop_mem (env : Env) (reviewers : UserSet) (l : List IssueComment)
    (c : IssueComment) (h : scan env reviewers l = .merge c ∨ scan env reviewers l = .cancel c) :
    c ∈ l ∧ isAuthorized env reviewers c = true := by
  induction l with
  | nil => simp [scan] at h
  | cons d older ih =>
    unfold scan at h
    by_cases hauth : isAuthorized env reviewers d = true
    · simp only [hauth, if_true] at h
      cases hb : d.Body with
      | none => simp [hb] at h
      | some body =>
        simp only [hb] at h
        by_cases hcan : isCancelBody env body = true
        · simp only [hcan, if_true] at h
          rcases h with h | h
          · exact Verdict.noConfusion h
          · simp only [Verdict.cancel.injEq] at h
            subst h
            exact ⟨List.mem_cons_self _ _, hauth⟩
        · by_cases hmer : isMergeBody env body = true
          · simp only [hcan, hmer, Bool.false_eq_true, if_false, if_true] at h
            rcases h with h | h
            · simp only [Verdict.merge.injEq] at h
              subst h
              exact ⟨List.mem_cons_self _ _, hauth⟩
            · exact Verdict.noConfusion h
          · simp only [hcan, hmer, Bool.false_eq_true, if_false] at h
            exact ⟨List.mem_cons_of_mem _ (ih h).1, (ih h).2⟩
    · simp only [hauth, Bool.false_eq_true, if_false] at h
      exact ⟨List.mem_cons_of_mem _ (ih h).1, (ih h).2⟩

theorem scan_no_crash (env : Env) (reviewers : UserSet) (l : List IssueComment)
    (hbody : ∀ c ∈ l, isAuthorized env reviewers c = true → c.Body.isSome = true) :
    scan env reviewers l ≠ .crash := by
  induction l with
  | nil => simp [scan]
  | cons d older ih =>
    have ih2 := ih (fun c hc => hbody c (List.mem_cons_of_mem _ hc))
    unfold scan
    by_cases hauth : isAuthorized env reviewers d = true
    · simp only [hauth, if_true]
      obtain ⟨body, hb⟩ := Option.isSome_iff_exists.mp (hbody d (List.mem_cons_self _ _) hauth)
      simp only [hb]
      by_cases hcan : isCancelBody env body = true
      · simp [hcan]
      · by_cases hmer : isMergeBody env body = true
        · simp [hcan, hmer]
        · simpa [hcan, hmer] using ih2
    · simpa [hauth] using ih2

theorem authorized_complete_no_panic (env : Env) (l : List IssueComment)
    (events : List IssueEvent) (reviewers : UserSet)
    (hcomplete : ∀ c ∈ l, isAuthorized env reviewers c = true → c.Complete = true) :
    addOfVerdict events (scan env reviewers l) ≠ .panicked ∧
      removeOfVerdict events (scan env reviewers l) ≠ .panicked := by
  have hbody : ∀ c ∈ l, isAuthorized env reviewers c = true → c.Body.isSome = true := by
    intro c hc ha
    have := hcomplete c hc ha
    simp only [IssueComment.Complete, Bool.and_eq_true] at this
    exact this.1.2
  have hcrash := scan_no_crash env reviewers l hbody
  cases hs : scan env reviewers l with
  | exhausted => simp [addOfVerdict, removeOfVerdict]
  | crash => exact absurd hs hcrash
  | merge c =>
    obtain ⟨hmem, hauth⟩ := scan_stop_mem env reviewers l c (Or.inl hs)
    obtain ⟨created, _, hfin⟩ := addFinish_complete events c (hcomplete c hmem hauth)
    refine ⟨?_, by simp [removeOfVerdict]⟩
    simp only [addOfVerdict, hfin]
    split <;> simp
  | cancel c =>
    obtain ⟨hmem, hauth⟩ := scan_stop_mem env reviewers l c (Or.inr hs)
    obtain ⟨created, _, hfin⟩ := removeFinish_complete events c (hcomplete c hmem hauth)
    refine ⟨by simp [addOfVerdict], ?_⟩
    simp only [removeOfVerdict, hfin]
    split <;> simp

/-- C16, amended: for every reviewer set, event list and comment list in which
every comment of a valid author approved to alter labels carries an author
login, a body and a creation time, `addLGTMIfCommented` and
`removeLGTMIfCancelled` run to completion; and for every request whose
last-modified time is present and whose comments are such, `Munge` runs to
completion. -/
theorem no_fatal_conditions (env : Env) (obj : MungeObject) (comments : List IssueComment)
    (events : List IssueEvent) (reviewers : UserSet) :
    ((∀ c ∈ comments, isAuthorized env reviewers c = true → c.Complete = true) →
        addLGTMIfCommented env comments events reviewers ≠ .panicked ∧
          removeLGTMIfCancelled env comments events reviewers ≠ .panicked) ∧
      (obj.LastModifiedTime.isSome = true →
        (∀ c ∈ obj.Comments, isAuthorized env (getReviewers obj) c = true →
          c.Complete = true) →
        Munge env obj ≠ .panicked) := by
  constructor
  · intro hcomplete
    rw [addLGTMIfCommented_eq_verdict, removeLGTMIfCancelled_eq_verdict]
    exact authorized_complete_no_panic env comments.reverse events reviewers
      (fun c hc => hcomplete c (List.mem_reverse.mp hc))
  · intro hlm hcomplete
    obtain ⟨lm, hlm⟩ := Option.isSome_iff_exists.mp hlm
    unfold Munge
    by_cases hpr : obj.IsPR = true
    · by_cases hrev : (getReviewers obj).length = 0
      · simp [hpr, hrev]
      · simp only [hpr, hrev, Bool.not_true, Bool.false_eq_true, if_false]
        unfold getCommentsAfterLastModified MungeObject.ListComments MungeObject.GetEvents
        rw [hlm]
        cases obj.commentsErr with
        | some msg => simp
        | none =>
          cases obj.eventsErr with
          | some msg => simp
          | none =>
            simp only
            have hsub : ∀ c ∈ (obj.Comments.filter fun c =>
                match c.CreatedAt with
                | some t => decide (lm ≤ t)
                | none => false).reverse,
                isAuthorized env (getReviewers obj) c = true → c.Complete = true :=
              fun c hc => hcomplete c (List.mem_of_mem_filter (List.mem_reverse.mp hc))
            obtain ⟨h1, h2⟩ := authorized_complete_no_panic env _ obj.Events
              (getReviewers obj) hsub
            rw [addLGTMIfCommented_eq_verdict, removeLGTMIfCancelled_eq_verdict]
            split
            · exact h1
            · exact h2
    · simp [hpr]

/-- C16 amended, evaluated: `demoComments`, all complete, make both loops
return; `demoUnlabeledPR` has a last-modified time and complete comments. -/
theorem no_fatal_conditions_witness :
    addLGTMIfCommented demoEnv demoComments demoEvents [demoReviewer] ≠ .panicked ∧
      Munge demoEnv demoUnlabeledPR ≠ .panicked :=
  ⟨((no_fatal_conditions demoEnv demoUnlabeledPR demoComments demoEvents
        [demoReviewer]).1 (by decide)).1,
    (no_fatal_conditions demoEnv demoUnlabeledPR demoComments demoEvents
        [demoReviewer]).2 (by decide) (by decide)⟩

/-! ## The discarded `strings.TrimSpace` (C18) -/

theorem fieldsAux_append_spaces (w : List Char) (hw : ∀ c ∈ w, unicodeIsSpace c = true)
    (l : List Char) : ∀ cur : List Char, fieldsAux (l ++ w) cur = fieldsAux l cur := by
  induction l with
  | nil =>
    intro cur
    simp only [List.nil_append]
    induction w generalizing cur with
    | nil => rfl
    | cons c rest ih =>
      have hc := hw c (List.mem_cons_self _ _)
      have hrest : ∀ d ∈ rest, unicodeIsSpace d = true :=
        fun d hd => hw d (List.mem_cons_of_mem _ hd)
      unfold fieldsAux
      simp only [hc, if_true]
      rw [ih hrest []]
      by_cases hcur : cur = []
      · simp [hcur, fieldsAux]
      · simp [hcur, fieldsAux]
  | cons c rest ih =>
    intro cur
    simp only [List.cons_append]
    unfold fieldsAux
    simp only [ih]

theorem fieldsAux_spaces_append (w : List Char) (hw : ∀ c ∈ w, unicodeIsSpace c = true)
    (l : List Char) : fieldsAux (w ++ l) [] = fieldsAux l [] := by
  induction w with
  | nil => rfl
  | cons c rest ih =>
    have hc := hw c (List.mem_cons_self _ _)
    simp only [List.cons_append]
    conv_lhs => unfold fieldsAux
    simp only [hc, if_true]
    exact ih (fun d hd => hw d (List.mem_cons_of_mem _ hd))

/-- Trimming white space at both ends does not change the fields. -/
theorem stringsFields_trimSpace (s : String) :
    stringsFields (stringsTrimSpace s) = stringsFields s := by
  unfold stringsFields stringsTrimSpace
  congr 1
  show fieldsAux ((s.data.dropWhile unicodeIsSpace).reverse.dropWhile unicodeIsSpace).reverse
      [] = fieldsAux s.data []
  have h1 : s.data = s.data.takeWhile unicodeIsSpace ++ s.data.dropWhile unicodeIsSpace :=
    (List.takeWhile_append_dropWhile _ _).symm
  have h2 : s.data.dropWhile unicodeIsSpace =
      ((s.data.dropWhile unicodeIsSpace).reverse.dropWhile unicodeIsSpace).reverse ++
        ((s.data.dropWhile unicodeIsSpace).reverse.takeWhile unicodeIsSpace).reverse := by
    rw [← List.reverse_append, List.takeWhile_append_dropWhile, List.reverse_reverse]
  have hw1 : ∀ c ∈ s.data.takeWhile unicodeIsSpace, unicodeIsSpace c = true :=
    fun c hc => List.mem_takeWhile_imp hc
  have hw2 : ∀ c ∈ ((s.data.dropWhile unicodeIsSpace).reverse.takeWhile
      unicodeIsSpace).reverse, unicodeIsSpace c = true :=
    fun c hc => List.mem_takeWhile_imp (List.mem_reverse.mp hc)
  conv_rhs => rw [h1, fieldsAux_spaces_append _ hw1, h2, fieldsAux_append_spaces _ hw2]

theorem headD_consHead (c : Char) (pieces : List (List Char)) :
    (consHead c pieces).headD [] = c :: pieces.headD [] := by
  cases pieces <;> rfl

theorem splitSlashes_headD_cons (c : Char) (hc : c ≠ '/') (l : List Char) :
    (splitSlashes (c :: l)).headD [] = c :: (splitSlashes l).headD [] := by
  cases l with
  | nil => rfl
  | cons d rest =>
    rw [splitSlashes, if_neg (fun h => hc h.1), headD_consHead]

theorem splitSlashes_headD_spaces_append (w : List Char)
    (hw : ∀ c ∈ w, unicodeIsSpace c = true) (l : List Char) :
    (splitSlashes (w ++ l)).headD [] = w ++ (splitSlashes l).headD [] := by
  induction w with
  | nil => rfl
  | cons c rest ih =>
    have hc := unicodeIsSpace_ne_slash c (hw c (List.mem_cons_self _ _))
    simp only [List.cons_append]
    rw [splitSlashes_headD_cons c hc, ih (fun d hd => hw d (List.mem_cons_of_mem _ hd))]

theorem splitSlashes_headD_append_spaces (w : List Char)
    (hw : ∀ c ∈ w, unicodeIsSpace c = true) (l : List Char) :
    (splitSlashes (l ++ w)).headD [] = (splitSlashes l).headD [] ++ w ∨
      (splitSlashes (l ++ w)).headD [] = (splitSlashes l).headD [] := by
  induction l using splitSlashes.induct with
  | case1 =>
    left
    rw [List.nil_append, splitSlashes_no_sep w (sep_not_infix_of_spaces w hw)]
    rfl
  | case2 c =>
    left
    have hno : ¬ ['/', '/'] <:+: c :: w := by
      rw [List.infix_cons_iff]
      rintro (h | h)
      · cases w with
        | nil => simpa using h.length_le
        | cons d rest =>
          rw [List.cons_prefix_cons, List.cons_prefix_cons] at h
          exact unicodeIsSpace_ne_slash d (hw d (List.mem_cons_self _ _)) h.2.1.symm
      · exact sep_not_infix_of_spaces w hw h
    show (splitSlashes (c :: w)).headD [] = _
    rw [splitSlashes_no_sep _ hno]
    rfl
  | case3 c d rest h ih =>
    right
    show (splitSlashes (c :: d :: (rest ++ w))).headD [] = _
    rw [splitSlashes, if_pos h, splitSlashes, if_pos h]
    rfl
  | case4 c d rest h ih =>
    have hl : (splitSlashes (c :: d :: rest)).headD [] =
        c :: (splitSlashes (d :: rest)).headD [] := by
      rw [splitSlashes, if_neg h, headD_consHead]
    have hr : (splitSlashes (c :: d :: rest ++ w)).headD [] =
        c :: (splitSlashes (d :: rest ++ w)).headD [] := by
      show (splitSlashes (c :: d :: (rest ++ w))).headD [] = _
      rw [splitSlashes, if_neg h, headD_consHead]
      rfl
    rw [hl, hr]
    rcases ih with ih | ih
    · left
      rw [ih]
      rfl
    · right
      rw [ih]

/-- White space before and after a body does not change its fields. -/
theorem getFields_surrounding_spaces (body w1 w2 : String)
    (h1 : ∀ c ∈ w1.data, unicodeIsSpace c = true)
    (h2 : ∀ c ∈ w2.data, unicodeIsSpace c = true) :
    getFields (w1 ++ body ++ w2) = getFields body := by
  rw [getFields_eq, getFields_eq]
  have hdata : (w1 ++ body ++ w2).data = w1.data ++ (body.data ++ w2.data) := by
    simp [String.data_append]
  rw [hdata, splitSlashes_headD_spaces_append w1.data h1]
  unfold stringsFields
  simp only [Option.some.injEq]
  congr 1
  show fieldsAux (w1.data ++ (splitSlashes (body.data ++ w2.data)).headD []) [] =
    fieldsAux ((splitSlashes body.data).headD []) []
  rw [fieldsAux_spaces_append w1.data h1]
  rcases splitSlashes_headD_append_spaces w2.data h2 body.data with h | h
  · rw [h, fieldsAux_append_spaces w2.data h2]
  · rw [h]

/-- C18: for every comment body `getFields(body)` equals the variant that
applies `strings.TrimSpace` to the text before the first `"//"` before
splitting it into fields; and white space put before and after a body changes
neither the returned fields nor the classification of the comment. -/
theorem trimSpace_immaterial (env : Env) (body w1 w2 : String) :
    getFields body = getFieldsTrimmed body ∧
      ((∀ c ∈ w1.data, unicodeIsSpace c = true) →
        (∀ c ∈ w2.data, unicodeIsSpace c = true) →
        getFields (w1 ++ body ++ w2) = getFields body ∧
          isMergeBody env (w1 ++ body ++ w2) = isMergeBody env body ∧
          isCancelBody env (w1 ++ body ++ w2) = isCancelBody env body) := by
  constructor
  · unfold getFields getFieldsTrimmed
    cases (stringsSplit body)[0]? with
    | none => rfl
    | some cmd => simp only [stringsFields_trimSpace]
  · intro h1 h2
    have h := getFields_surrounding_spaces body w1 w2 h1 h2
    exact ⟨h, by unfold isMergeBody; rw [h], by unfold isCancelBody; rw [h]⟩

/-- C18, evaluated: the cancel-command between white space, followed by an
annotation, has the fields of the bare command. -/
theorem trimSpace_immaterial_witness :
    getFields (" \t" ++ "/lgtm cancel // why" ++ "\n ") = getFields "/lgtm cancel // why" ∧
      getFieldsTrimmed "  /lgtm cancel  " = some ["/lgtm", "cancel"] :=
  ⟨((trimSpace_immaterial demoEnv "/lgtm cancel // why" " \t" "\n ").2 (by decide)
      (by decide)).1,
    by decide⟩

end Mungers
